import Mathlib

/-!
Verification development for the LinkedIn-profile analysis script
(`scripts/linkedin_analysis.py`).

The script sends a screenshot to a hosted model twice, extracts one JSON
object from each free-form text response, post-processes the coordinate
payload, and renders an interactive HTML report.  This file gives a shallow
embedding of those steps:

* text is `List Char`; Python string helpers (`find`, `rfind`, slicing,
  `strip`) are modelled exactly, including `find` returning `-1` and the
  negative-index semantics of slices;
* JSON values are the mutual inductive `Json`; `jsonLoads` models
  `json.loads` on the fragment the script exchanges: numbers are integral
  (JSON integer literals), strings contain no escape sequences, whitespace
  does not separate tokens (the script's own serializations are compact and
  the fenced-block path strips surrounding whitespace);
* Python numbers are modelled as `ℚ`; the claims at issue are order and
  bound properties that are exact in every numeric model;
* fallible Python code (paths that raise and are caught, returning `None`)
  returns `Option`.
-/

/-- Delimiter characters, written by code point so the embedding stays free
of delimiter literals. -/
def quoteChar : Char := Char.ofNat 34

def backslashChar : Char := Char.ofNat 92

def backtickChar : Char := Char.ofNat 96

def lbraceChar : Char := Char.ofNat 123

def rbraceChar : Char := Char.ofNat 125

def lbrackChar : Char := Char.ofNat 91

def rbrackChar : Char := Char.ofNat 93

def newlineChar : Char := Char.ofNat 10

mutual

/-- JSON values as produced by `json.loads` in the script: numbers carried
as rationals (integral in the modelled fragment), object members in
insertion order. -/
inductive Json where
  | null : Json
  | bool (b : Bool) : Json
  | num (q : ℚ) : Json
  | str (s : List Char) : Json
  | arr (l : JsonArr) : Json
  | obj (o : JsonObj) : Json
  deriving DecidableEq

/-- A JSON array body. -/
inductive JsonArr where
  | anil : JsonArr
  | acons (hd : Json) (tl : JsonArr) : JsonArr
  deriving DecidableEq

/-- A JSON object body: ordered key/value members. -/
inductive JsonObj where
  | onil : JsonObj
  | ocons (k : List Char) (v : Json) (tl : JsonObj) : JsonObj
  deriving DecidableEq

end

/-- The keyword spellings recognized by the value parser. -/
def nullChars : List Char := ['n', 'u', 'l', 'l']

def trueChars : List Char := ['t', 'r', 'u', 'e']

def falseChars : List Char := ['f', 'a', 'l', 's', 'e']

/-- Decimal digit character for `d < 10`. -/
def digitChar (d : Nat) : Char := Char.ofNat (48 + d)

/-- Decimal digits with structural fuel (any fuel above the value works). -/
def serNatAux : Nat → Nat → List Char
  | 0, _ => []
  | fuel + 1, n =>
    if n < 10 then [digitChar n]
    else serNatAux fuel (n / 10) ++ [digitChar (n % 10)]

/-- Decimal digits of a natural number, most significant first. -/
def serNat (n : Nat) : List Char := serNatAux (n + 1) n

/-- Decimal rendering of an integer. -/
def serInt (i : Int) : List Char :=
  if i < 0 then '-' :: serNat i.natAbs else serNat i.toNat

mutual

/-- Compact JSON serialization of a value (the form the script itself
round-trips: no whitespace between tokens). -/
def serVal : Json → List Char
  | .null => nullChars
  | .bool true => trueChars
  | .bool false => falseChars
  | .num q => serInt q.num
  | .str s => quoteChar :: (s ++ [quoteChar])
  | .arr .anil => [lbrackChar, rbrackChar]
  | .arr (.acons v tl) => lbrackChar :: serItemsNE (.acons v tl)
  | .obj .onil => [lbraceChar, rbraceChar]
  | .obj (.ocons k v tl) => lbraceChar :: serMembersNE (.ocons k v tl)

/-- Serialization of a non-empty array body, including the closing bracket. -/
def serItemsNE : JsonArr → List Char
  | .anil => [rbrackChar]
  | .acons v .anil => serVal v ++ [rbrackChar]
  | .acons v (.acons w tl) => serVal v ++ (',' :: serItemsNE (.acons w tl))

/-- Serialization of a non-empty object body, including the closing brace. -/
def serMembersNE : JsonObj → List Char
  | .onil => [rbraceChar]
  | .ocons k v .onil => (quoteChar :: (k ++ [quoteChar])) ++ (':' :: (serVal v ++ [rbraceChar]))
  | .ocons k v (.ocons k2 w tl) =>
      (quoteChar :: (k ++ [quoteChar])) ++ (':' :: (serVal v ++ (',' :: serMembersNE (.ocons k2 w tl))))

end

mutual

/-- Fuel bound on the nesting work of parsing a value. -/
def jsize : Json → Nat
  | .null => 1
  | .bool _ => 1
  | .num _ => 1
  | .str _ => 1
  | .arr l => 1 + asize l
  | .obj o => 1 + osize o

/-- Fuel bound for a non-empty array body. -/
def asize : JsonArr → Nat
  | .anil => 0
  | .acons v tl => 1 + jsize v + asize tl

/-- Fuel bound for a non-empty object body. -/
def osize : JsonObj → Nat
  | .onil => 0
  | .ocons _ v tl => 1 + jsize v + osize tl

end

mutual

/-- Well-formedness of the modelled JSON fragment: strings (and keys) hold
no quote or backslash, numbers are integral. -/
def wfJson : Json → Bool
  | .null => true
  | .bool _ => true
  | .num q => q.den = 1
  | .str s => decide (quoteChar ∉ s) && decide (backslashChar ∉ s)
  | .arr l => wfArr l
  | .obj o => wfObj o

/-- Well-formedness of an array body. -/
def wfArr : JsonArr → Bool
  | .anil => true
  | .acons v tl => wfJson v && wfArr tl

/-- Well-formedness of an object body. -/
def wfObj : JsonObj → Bool
  | .onil => true
  | .ocons k v tl =>
      decide (quoteChar ∉ k) && decide (backslashChar ∉ k) && wfJson v && wfObj tl

end

/-- Body of a JSON string after the opening quote: plain characters up to
the closing quote (escape sequences are outside the modelled fragment). -/
def parseStrBody : List Char → Option (List Char × List Char)
  | [] => none
  | c :: r =>
    if c = quoteChar then some ([], r)
    else if c = backslashChar then none
    else
      match parseStrBody r with
      | some (cs, r2) => some (c :: cs, r2)
      | none => none

/-- Numeric value of a digit list. -/
def digitsToNat (ds : List Char) : Nat :=
  ds.foldl (fun a c => a * 10 + (c.toNat - 48)) 0

/-- One-or-more decimal digits, maximal munch. -/
def parseDigits (s : List Char) : Option (Nat × List Char) :=
  let ds := s.takeWhile (fun c => c.isDigit)
  if ds.isEmpty then none
  else some (digitsToNat ds, s.dropWhile (fun c => c.isDigit))

mutual

/-- Recursive-descent JSON value, structurally recursive on fuel. -/
def parseVal : Nat → List Char → Option (Json × List Char)
  | 0, _ => none
  | _ + 1, [] => none
  | fuel + 1, c :: r =>
    if c = 'n' then
      match r with
      | 'u' :: 'l' :: 'l' :: r2 => some (.null, r2)
      | _ => none
    else if c = 't' then
      match r with
      | 'r' :: 'u' :: 'e' :: r2 => some (.bool true, r2)
      | _ => none
    else if c = 'f' then
      match r with
      | 'a' :: 'l' :: 's' :: 'e' :: r2 => some (.bool false, r2)
      | _ => none
    else if c = quoteChar then
      match parseStrBody r with
      | some (cs, r2) => some (.str cs, r2)
      | none => none
    else if c = '-' then
      match parseDigits r with
      | some (n, r2) => some (.num (-(n : ℚ)), r2)
      | none => none
    else if c = lbrackChar then
      match r with
      | [] => none
      | c2 :: r2 =>
        if c2 = rbrackChar then some (.arr .anil, r2)
        else
          match parseItems fuel (c2 :: r2) with
          | some (l, r3) => some (.arr l, r3)
          | none => none
    else if c = lbraceChar then
      match r with
      | [] => none
      | c2 :: r2 =>
        if c2 = rbraceChar then some (.obj .onil, r2)
        else
          match parseMembers fuel (c2 :: r2) with
          | some (o, r3) => some (.obj o, r3)
          | none => none
    else if c.isDigit then
      match parseDigits (c :: r) with
      | some (n, r2) => some (.num (n : ℚ), r2)
      | none => none
    else none

/-- Elements of a non-empty array body, consuming the closing bracket. -/
def parseItems : Nat → List Char → Option (JsonArr × List Char)
  | 0, _ => none
  | fuel + 1, s =>
    match parseVal fuel s with
    | none => none
    | some (v, r) =>
      match r with
      | [] => none
      | c :: r2 =>
        if c = ',' then
          match parseItems fuel r2 with
          | some (l, r3) => some (.acons v l, r3)
          | none => none
        else if c = rbrackChar then some (.acons v .anil, r2)
        else none

/-- Members of a non-empty object body, consuming the closing brace. -/
def parseMembers : Nat → List Char → Option (JsonObj × List Char)
  | 0, _ => none
  | fuel + 1, s =>
    match s with
    | [] => none
    | c :: r =>
      if c = quoteChar then
        match parseStrBody r with
        | none => none
        | some (k, r2) =>
          match r2 with
          | [] => none
          | c2 :: r3 =>
            if c2 = ':' then
              match parseVal fuel r3 with
              | none => none
              | some (v, r4) =>
                match r4 with
                | [] => none
                | c3 :: r5 =>
                  if c3 = ',' then
                    match parseMembers fuel r5 with
                    | some (o, r6) => some (.ocons k v o, r6)
                    | none => none
                  else if c3 = rbraceChar then some (.ocons k v .onil, r5)
                  else none
            else none
      else none

end

/-- `json.loads` on the modelled fragment: parse one value consuming the
whole input; anything else raises, modelled as `none`. -/
def jsonLoads (s : List Char) : Option Json :=
  match parseVal (s.length + 1) s with
  | some (v, []) => some v
  | _ => none

/-- True when the list does not begin with a decimal digit, so that maximal
munch of a preceding numeral stops exactly at the boundary. -/
def notDigitStart : List Char → Bool
  | [] => true
  | c :: _ => !c.isDigit

/-- Whitespace as stripped by Python `str.strip` (the fragment arising here:
space, newline, tab, carriage return). -/
def isWS (c : Char) : Bool :=
  c = ' ' || c = newlineChar || c = Char.ofNat 9 || c = Char.ofNat 13

/-- Index of the first occurrence of `pat` as a contiguous sublist. -/
def findSub (pat : List Char) : List Char → Option Nat
  | [] => if pat.isPrefixOf [] then some 0 else none
  | c :: cs => if pat.isPrefixOf (c :: cs) then some 0 else (findSub pat cs).map (· + 1)

/-- Python `str.find`: first index of the pattern, `-1` if absent. -/
def pyFind (pat s : List Char) : Int :=
  match findSub pat s with
  | some i => (i : Int)
  | none => -1

/-- Python index normalization for slices (`s[a:b]`) and `find` start
arguments: negative indices count from the end, then clamp into `[0, len]`. -/
def pyNormIdx (len : Nat) (i : Int) : Nat :=
  if i < 0 then ((len : Int) + i).toNat else min i.toNat len

/-- Python slice `s[a:b]`. -/
def pySlice (s : List Char) (a b : Int) : List Char :=
  (s.take (pyNormIdx s.length b)).drop (pyNormIdx s.length a)

/-- Python `str.find(pat, start)`. -/
def pyFindFrom (pat s : List Char) (start : Int) : Int :=
  let st := pyNormIdx s.length start
  match findSub pat (s.drop st) with
  | some i => ((st + i : Nat) : Int)
  | none => -1

/-- Python `str.rfind` of a single character: last index, `-1` if absent. -/
def pyRFindChar (c : Char) (s : List Char) : Int :=
  match findSub [c] s.reverse with
  | some i => ((s.length - 1 - i : Nat) : Int)
  | none => -1

/-- Python `str.strip`: drop leading and trailing whitespace. -/
def pyStrip (s : List Char) : List Char :=
  ((s.dropWhile isWS).reverse.dropWhile isWS).reverse

/-- The characters of the opening fence marker the script searches for. -/
def fenceTag : List Char :=
  backtickChar :: backtickChar :: backtickChar :: ('j' :: 's' :: 'o' :: 'n' :: [])

/-- The characters of a bare code fence. -/
def fence3 : List Char := [backtickChar, backtickChar, backtickChar]

/-- The JSON-from-free-text extraction step, identical at both call sites
(`identify_section_coordinates` lines 110-117 and `analyze_profile` lines
237-244): if the fence marker occurs, take from just after it to the next
bare fence (to the second-to-last character when no closing fence exists,
Python `find` returning `-1`) and strip whitespace; otherwise take from the
first opening brace to the last closing brace inclusive. -/
def extract_json_text (t : List Char) : List Char :=
  if (findSub fenceTag t).isSome then
    pyStrip (pySlice t (pyFind fenceTag t + 7) (pyFindFrom fence3 t (pyFind fenceTag t + 7)))
  else
    pySlice t (pyFind [lbraceChar] t) (pyRFindChar rbraceChar t + 1)

/-- Python dict lookup `m.get(key)` on a decoded JSON object. -/
def objGet : JsonObj → List Char → Option Json
  | .onil, _ => none
  | .ocons k v tl, key => if k = key then some v else objGet tl key

/-- Python dict assignment `m[key] = v`: overwrite in place, else append. -/
def objSet : JsonObj → List Char → Json → JsonObj
  | .onil, key, v => .ocons key v .onil
  | .ocons k w tl, key, v =>
    if k = key then .ocons k v tl else .ocons k w (objSet tl key v)

/-- Python list indexing on a JSON array (`none` models `IndexError`). -/
def arrGet : JsonArr → Nat → Option Json
  | .anil, _ => none
  | .acons v _, 0 => some v
  | .acons _ tl, n + 1 => arrGet tl n

def jarrToList : JsonArr → List Json
  | .anil => []
  | .acons v tl => v :: jarrToList tl

def listToJarr : List Json → JsonArr
  | [] => .anil
  | v :: tl => .acons v (listToJarr tl)

/-- Python truthiness of a JSON-decoded value. -/
def truthy : Json → Bool
  | .null => false
  | .bool b => b
  | .num q => decide (q ≠ 0)
  | .str s => decide (s ≠ [])
  | .arr .anil => false
  | .arr (.acons _ _) => true
  | .obj .onil => false
  | .obj (.ocons _ _ _) => true

def dsKey : List Char := "detected_sections".data

def tcKey : List Char := "title_coordinates".data

def confKey : List Char := "confidence".data

def precKey : List Char := "coordinate_precision".data

def highStr : List Char := "high".data

def mediumStr : List Char := "medium".data

/-- Python `max(a, b)` on numbers. -/
def pyMax (a b : ℚ) : ℚ := if a ≤ b then b else a

/-- Python `min(a, b)` on numbers. -/
def pyMin (a b : ℚ) : ℚ := if b ≤ a then b else a

/-- The sort key of line 124: `x.get('title_coordinates', [0, 0])[1]`.
`none` models an exception escaping from the key function (non-dict section,
non-indexable or too-short coordinates, non-numeric second component — the
modelled fragment orders by numbers, as the schema demands). -/
def sortKey (s : Json) : Option ℚ :=
  match s with
  | .obj m =>
    match objGet m tcKey with
    | none => some 0
    | some (.arr xs) =>
      match arrGet xs 1 with
      | some (.num q) => some q
      | _ => none
    | some _ => none
  | _ => none

/-- Stable insertion of a later element after all strictly-smaller keys and
before equal ones — the unique stable order, matching Python's stable
`list.sort`. -/
def insertPair (p : ℚ × Json) : List (ℚ × Json) → List (ℚ × Json)
  | [] => [p]
  | q :: qs => if q.1 < p.1 then q :: insertPair p qs else p :: q :: qs

def insertionSortPairs : List (ℚ × Json) → List (ℚ × Json)
  | [] => []
  | p :: ps => insertPair p (insertionSortPairs ps)

def traverseOption (f : α → Option β) : List α → Option (List β)
  | [] => some []
  | x :: xs =>
    match f x, traverseOption f xs with
    | some y, some ys => some (y :: ys)
    | _, _ => none

def traverseKeys (l : List Json) : Option (List (ℚ × Json)) :=
  traverseOption (fun s => (sortKey s).map (fun k => (k, s))) l

/-- The in-place stable sort of lines 123-124: every element's key is
computed (any key failure raises out of `list.sort`, as Python's
decorate-sort does) and the list is stably sorted by key. -/
def sortSections (l : List Json) : Option (List Json) :=
  match traverseKeys l with
  | some ps => some ((insertionSortPairs ps).map Prod.snd)
  | none => none

/-- The per-section adjustment of lines 127-140: take `title_coordinates`
(defaulting to `[0, 0]`), clamp both components into `[0, 100]`, nudge the
x-component left by `0.5` with an explicit guard at `0`, store the result
back, and annotate `coordinate_precision` from `confidence` (missing
confidence reads as `0`, hence `"medium"`; Python bools compare as 0/1). -/
def adjustSection (s : Json) : Option Json :=
  match s with
  | .obj m =>
    match (objGet m tcKey).getD (.arr (.acons (.num 0) (.acons (.num 0) .anil))) with
    | .arr (.acons (.num x) (.acons (.num y) restc)) =>
      let x1 := pyMax 0 (pyMin 100 x)
      let y1 := pyMax 0 (pyMin 100 y)
      let x2 := pyMax 0 (x1 - (1 / 2 : ℚ))
      let m1 := objSet m tcKey (.arr (.acons (.num x2) (.acons (.num y1) restc)))
      match objGet m confKey with
      | none => some (.obj (objSet m1 precKey (.str mediumStr)))
      | some (.num c) =>
        some (.obj (objSet m1 precKey (.str (if 85 ≤ c then highStr else mediumStr))))
      | some (.bool _) => some (.obj (objSet m1 precKey (.str mediumStr)))
      | some _ => none
    | _ => none
  | _ => none

/-- Lines 123-140 in sequence: stable sort, then the per-section pass. -/
def processSections (l : List Json) : Option (List Json) :=
  match sortSections l with
  | some ls => traverseOption adjustSection ls
  | none => none

/-- Lines 121-141: post-process only when the payload is truthy and carries
a truthy `detected_sections`; any exception inside is caught by the
enclosing handler, surfacing as `none`. -/
def postProcessJson (c : Json) : Option Json :=
  if truthy c then
    match c with
    | .obj m =>
      match objGet m dsKey with
      | none => some c
      | some ds =>
        if truthy ds then
          match ds with
          | .arr l =>
            match processSections (jarrToList l) with
            | some l2 => some (.obj (objSet m dsKey (.arr (listToJarr l2))))
            | none => none
          | _ => none
        else some c
    | _ => none
  else some c

/-- Lines 105-151, `identify_section_coordinates`: the upstream call either
fails (`none` input) or yields a response text; the JSON extraction and
post-processing run under a handler that swallows every exception and
returns `None`. -/
def identify_section_coordinates (resp : Option (List Char)) : Option Json :=
  match resp with
  | none => none
  | some t =>
    match jsonLoads (extract_json_text t) with
    | none => none
    | some c => postProcessJson c

/-- Lines 232-251, `analyze_profile`: the coordinate payload only shapes
the prompt sent upstream (the response is this model's input), and the
reply goes through the same JSON extraction with no post-processing; any
exception yields `None`. -/
def analyze_profile (resp : Option (List Char)) (_sectionCoordinates : Option Json) : Option Json :=
  match resp with
  | none => none
  | some t => jsonLoads (extract_json_text t)

def scoreKey : List Char := "overall_score".data

def feedbackKey : List Char := "overall_feedback".data

def sectionsKey : List Char := "sections".data

def critKey : List Char := "criticality".data

def coordsKey : List Char := "coordinates".data

def bboxKey : List Char := "bbox".data

def criticalKey : List Char := "critical_issues".data

def advantagesKey : List Char := "competitive_advantages".data

def nextKey : List Char := "next_steps".data

def missingKey : List Char := "missing_elements".data

def redStr : List Char := "red".data

def yellowStr : List Char := "yellow".data

def greenStr : List Char := "green".data

def defaultFeedback : List Char := "No feedback available".data

/-- Lines 272-277: the three-tier class of the overall-score banner. -/
def scoreClass (q : ℚ) : List Char :=
  if 85 ≤ q then "score-excellent".data
  else if 60 ≤ q then "score-good".data
  else "score-poor".data

/-- Clamp used by the renderer at lines 745-746. -/
def clamp95 (x : ℚ) : ℚ := pyMax 0 (pyMin 95 x)

/-- Clamp used by the extractor at lines 131-132. -/
def clamp100 (x : ℚ) : ℚ := pyMax 0 (pyMin 100 x)

/-- Line 731: the fallback bounding box `[0, 0, 10, 10]`. -/
def defaultBbox : Json :=
  .arr (.acons (.num 0) (.acons (.num 0) (.acons (.num 10) (.acons (.num 10) .anil))))

/-- Lines 730-733 and 745-746: the bbox fallback anchor `(bbox[2], bbox[1])`,
then clamped into [0, 95] on both axes.  `none` models `IndexError` /
`float()` failure outside the numeric fragment. -/
def bboxAnchor (m : JsonObj) : Option (ℚ × ℚ) :=
  match (objGet m bboxKey).getD defaultBbox with
  | .arr xs =>
    match arrGet xs 2, arrGet xs 1 with
    | some (.num x2), some (.num y1) => some (clamp95 x2, clamp95 y1)
    | _, _ => none
  | _ => none

/-- Lines 724-746: the marker anchor of one section: prefer a present,
truthy `coordinates` pair with x offset by `+3.0`; otherwise the bbox
fallback; both components clamped into [0, 95]. -/
def anchorObj (m : JsonObj) : Option (ℚ × ℚ) :=
  match objGet m coordsKey with
  | some c =>
    if truthy c then
      match c with
      | .arr xs =>
        match arrGet xs 0, arrGet xs 1 with
        | some (.num x), some (.num y) => some (clamp95 (x + 3), clamp95 y)
        | _, _ => none
      | _ => none
    else bboxAnchor m
  | none => bboxAnchor m

def anchorOf (s : Json) : Option (ℚ × ℚ) :=
  match s with
  | .obj m => anchorObj m
  | _ => none

/-- One rendered marker (the clickable info button); its detail panel is
emitted alongside it, one per marker, with content from the same section. -/
structure Marker where
  x : ℚ
  y : ℚ
  criticality : Json
  deriving DecidableEq

/-- Lines 721-757: the marker emitted for one section (criticality defaults
to `"yellow"`). -/
def markerOf (s : Json) : Option Marker :=
  match s with
  | .obj m =>
    match anchorObj m with
    | some p => some ⟨p.1, p.2, (objGet m critKey).getD (.str yellowStr)⟩
    | none => none
  | _ => none

/-- Lines 686-688: each section's `criticality` value (sections must be
dicts for `.get`). -/
def critsOf (sections : List Json) : Option (List (Option Json)) :=
  traverseOption
    (fun s =>
      match s with
      | .obj m => some (objGet m critKey)
      | _ => none)
    sections

/-- Lines 686-689: count of sections whose criticality equals a given tag. -/
def countCrit (cs : List (Option Json)) (name : List Char) : Nat :=
  (cs.filter (fun c => decide (c = some (.str name)))).length

/-- Lines 819-857: a summary card is emitted iff the list is truthy;
iterating a truthy number raises (`none`), lists/strings/dicts iterate. -/
def cardOf (v : Option Json) : Option (Option Json) :=
  match v with
  | none => some none
  | some j =>
    if truthy j then
      match j with
      | .arr l => some (some (.arr l))
      | .str s2 => some (some (.str s2))
      | .obj o => some (some (.obj o))
      | _ => none
    else some none

/-- The dynamic content of the rendered HTML document: the fixed template
(styles, inline image, client-side toggling) carries no further data. -/
structure RenderDoc where
  scoreClassD : List Char
  overallScore : ℚ
  overallFeedback : Json
  redCount : Nat
  yellowCount : Nat
  greenCount : Nat
  totalSections : Nat
  markers : List Marker
  criticalIssuesCard : Option Json
  advantagesCard : Option Json
  nextStepsCard : Option Json
  missingElementsCard : Option Json
  deriving DecidableEq

/-- Lines 253-964, `create_interactive_html`, abstracted to the document's
dynamic content: score banner class, statistics strip, one marker (with its
detail panel) per section in input order, and the four summary cards.
`none` models an exception escaping the renderer. -/
def create_interactive_html (analysis : Json) : Option RenderDoc :=
  match analysis with
  | .obj m =>
    match (objGet m scoreKey).getD (.num 0) with
    | .num q =>
      match (objGet m sectionsKey).getD (.arr .anil) with
      | .arr sl =>
        match critsOf (jarrToList sl) with
        | some cs =>
          match traverseOption markerOf (jarrToList sl) with
          | some ms =>
            match cardOf (objGet m criticalKey), cardOf (objGet m advantagesKey),
                cardOf (objGet m nextKey), cardOf (objGet m missingKey) with
            | some ci, some ca, some ns, some me =>
              some ⟨scoreClass q, q, (objGet m feedbackKey).getD (.str defaultFeedback),
                countCrit cs redStr, countCrit cs yellowStr, countCrit cs greenStr,
                (jarrToList sl).length, ms, ci, ca, ns, me⟩
            | _, _, _, _ => none
          | none => none
        | none => none
      | _ => none
    | _ => none
  | _ => none

/-- A successful run's artifacts (lines 1020-1026). -/
structure PipelineResult where
  sectionCoordinates : Option Json
  analysis : Json
  document : RenderDoc
  deriving DecidableEq

/-- Lines 975-985: `if section_coordinates:` — a coordinate payload that is
`None` or falsy is replaced with `None` ("Coordinate detection failed,
proceeding with estimated positions") before being used as prompt context
or returned. -/
def normalizeCoords (sc : Option Json) : Option Json :=
  match sc with
  | some c => if truthy c then some c else none
  | none => none

/-- Lines 965-1026, `analyze_and_create_report`: coordinate detection is
attempted and a `None` or falsy result tolerated, degrading to no
coordinate context (lines 975-985); line 991 `if not analysis:` aborts the
run before any rendering when the analysis is `None` or falsy; otherwise
the report is rendered from the analysis alone. -/
def analyze_and_create_report (coordResp analysisResp : Option (List Char)) :
    Option PipelineResult :=
  let sc := normalizeCoords (identify_section_coordinates coordResp)
  match analyze_profile analysisResp sc with
  | none => none
  | some analysis =>
    if truthy analysis then
      match create_interactive_html analysis with
      | some doc => some ⟨sc, analysis, doc⟩
      | none => none
    else none

/-- Nondecreasing keys. -/
def KeySorted (l : List (ℚ × Json)) : Prop :=
  List.Chain' (fun a b => a.1 ≤ b.1) l

/-- The stored coordinate pair of a processed section. -/
def secXY (s : Json) : Option (ℚ × ℚ) :=
  match s with
  | .obj m =>
    match objGet m tcKey with
    | some (.arr (.acons (.num x) (.acons (.num y) _))) => some (x, y)
    | _ => none
  | _ => none

/-- The stored y-coordinate of a processed section. -/
def secY (s : Json) : Option ℚ := (secXY s).map Prod.snd

/-- A sample detected section: coordinates `[50, 70]`, confidence 90. -/
def secSample : Json :=
  .obj (.ocons tcKey (.arr (.acons (.num 50) (.acons (.num 70) .anil)))
    (.ocons confKey (.num 90) .onil))

/-- The sample section after the per-section pass: x clamped and nudged to
`49.5`, y kept at `70`, precision `"high"`. -/
def secSampleOut : Json :=
  .obj (objSet (objSet (.ocons tcKey (.arr (.acons (.num 50) (.acons (.num 70) .anil)))
      (.ocons confKey (.num 90) .onil)) tcKey
      (.arr (.acons (.num (99 / 2 : ℚ)) (.acons (.num 70) .anil)))) precKey (.str highStr))

theorem digitChar_isDigit {d : Nat} (h : d < 10) : (digitChar d).isDigit = true := by
  interval_cases d <;> decide

theorem digitChar_toNat {d : Nat} (h : d < 10) : (digitChar d).toNat = 48 + d := by
  interval_cases d <;> decide

theorem serNatAux_all_digits :
    ∀ fuel n, n < fuel → ∀ c ∈ serNatAux fuel n, c.isDigit = true := by
  intro fuel
  induction fuel with
  | zero => intro n hlt; omega
  | succ fuel ih =>
    intro n hlt c hc
    rw [serNatAux] at hc
    by_cases h10 : n < 10
    · rw [if_pos h10] at hc
      rcases List.mem_singleton.mp hc with rfl
      exact digitChar_isDigit h10
    · rw [if_neg h10] at hc
      rcases List.mem_append.mp hc with h1 | h2
      · have hd := Nat.div_lt_self (show 0 < n by omega) (show 1 < 10 by omega)
        exact ih (n / 10) (by omega) c h1
      · rcases List.mem_singleton.mp h2 with rfl
        exact digitChar_isDigit (Nat.mod_lt _ (by omega))

theorem serNat_all_digits (n : Nat) : ∀ c ∈ serNat n, c.isDigit = true :=
  serNatAux_all_digits (n + 1) n (by omega)

theorem serNatAux_cons :
    ∀ fuel n, n < fuel → ∃ c t, serNatAux fuel n = c :: t ∧ c.isDigit = true := by
  intro fuel
  induction fuel with
  | zero => intro n hlt; omega
  | succ fuel ih =>
    intro n hlt
    rw [serNatAux]
    by_cases h10 : n < 10
    · rw [if_pos h10]
      exact ⟨digitChar n, [], rfl, digitChar_isDigit h10⟩
    · rw [if_neg h10]
      have hd := Nat.div_lt_self (show 0 < n by omega) (show 1 < 10 by omega)
      obtain ⟨c, t, hct, hc⟩ := ih (n / 10) (by omega)
      exact ⟨c, t ++ [digitChar (n % 10)], by rw [hct]; rfl, hc⟩

theorem serNat_cons (n : Nat) : ∃ c t, serNat n = c :: t ∧ c.isDigit = true :=
  serNatAux_cons (n + 1) n (by omega)

theorem serNat_last (n : Nat) : ∃ t c, serNat n = t ++ [c] ∧ c.isDigit = true := by
  rw [serNat, serNatAux]
  by_cases h10 : n < 10
  · rw [if_pos h10]
    exact ⟨[], digitChar n, rfl, digitChar_isDigit h10⟩
  · rw [if_neg h10]
    exact ⟨serNatAux n (n / 10), digitChar (n % 10), rfl,
      digitChar_isDigit (Nat.mod_lt _ (by omega))⟩

theorem takeWhile_append_all {p : Char → Bool} {l1 l2 : List Char}
    (h : ∀ c ∈ l1, p c = true) : (l1 ++ l2).takeWhile p = l1 ++ l2.takeWhile p := by
  induction l1 with
  | nil => rfl
  | cons c t ih =>
    have hc : p c = true := h c (List.mem_cons_self _ _)
    simp [List.takeWhile_cons, hc, ih fun d hd => h d (List.mem_cons_of_mem _ hd)]

theorem dropWhile_append_all {p : Char → Bool} {l1 l2 : List Char}
    (h : ∀ c ∈ l1, p c = true) : (l1 ++ l2).dropWhile p = l2.dropWhile p := by
  induction l1 with
  | nil => rfl
  | cons c t ih =>
    have hc : p c = true := h c (List.mem_cons_self _ _)
    simp [List.dropWhile_cons, hc, ih fun d hd => h d (List.mem_cons_of_mem _ hd)]

theorem takeWhile_not_head {p : Char → Bool} {l : List Char}
    (h : notDigitStart l = true) (hp : p = fun c => c.isDigit) : l.takeWhile p = [] := by
  cases l with
  | nil => rfl
  | cons c t =>
    subst hp
    simp only [notDigitStart, Bool.not_eq_true'] at h
    simp [List.takeWhile_cons, h]

theorem dropWhile_not_head {p : Char → Bool} {l : List Char}
    (h : notDigitStart l = true) (hp : p = fun c => c.isDigit) : l.dropWhile p = l := by
  cases l with
  | nil => rfl
  | cons c t =>
    subst hp
    simp only [notDigitStart, Bool.not_eq_true'] at h
    simp [List.dropWhile_cons, h]

theorem digitsToNat_serNatAux :
    ∀ fuel n, n < fuel → digitsToNat (serNatAux fuel n) = n := by
  intro fuel
  induction fuel with
  | zero => intro n hlt; omega
  | succ fuel ih =>
    intro n hlt
    rw [serNatAux]
    by_cases h10 : n < 10
    · rw [if_pos h10]
      simp [digitsToNat, digitChar_toNat h10]
    · rw [if_neg h10]
      have hd := Nat.div_lt_self (show 0 < n by omega) (show 1 < 10 by omega)
      have hrec := ih (n / 10) (by omega)
      simp only [digitsToNat, List.foldl_append, List.foldl_cons, List.foldl_nil] at *
      rw [hrec, digitChar_toNat (Nat.mod_lt _ (by omega))]
      omega

theorem digitsToNat_serNat (n : Nat) : digitsToNat (serNat n) = n :=
  digitsToNat_serNatAux (n + 1) n (by omega)

theorem parseDigits_serNat (n : Nat) (rest : List Char) (h : notDigitStart rest = true) :
    parseDigits (serNat n ++ rest) = some (n, rest) := by
  have hall := serNat_all_digits n
  have hne : serNat n ≠ [] := by
    obtain ⟨c, t, hct, -⟩ := serNat_cons n
    simp [hct]
  simp only [parseDigits]
  rw [takeWhile_append_all hall, dropWhile_append_all hall,
    takeWhile_not_head h rfl, dropWhile_not_head h rfl, List.append_nil]
  simp [List.isEmpty_iff, hne, digitsToNat_serNat]

theorem parseStrBody_spec (s r : List Char) (hq : quoteChar ∉ s) (hb : backslashChar ∉ s) :
    parseStrBody (s ++ (quoteChar :: r)) = some (s, r) := by
  induction s with
  | nil => simp [parseStrBody]
  | cons c t ih =>
    have hcq : c ≠ quoteChar := fun h => hq (h ▸ List.mem_cons_self _ _)
    have hcb : c ≠ backslashChar := fun h => hb (h ▸ List.mem_cons_self _ _)
    have ih2 := ih (fun h => hq (List.mem_cons_of_mem _ h)) (fun h => hb (List.mem_cons_of_mem _ h))
    simp [parseStrBody, hcq, hcb, ih2]

theorem isDigit_ne {c x : Char} (h : c.isDigit = true) (hx : x.isDigit = false) : c ≠ x := by
  intro heq
  rw [heq] at h
  rw [h] at hx
  exact absurd hx (by decide)

theorem isDigit_isWS {c : Char} (h : c.isDigit = true) : isWS c = false := by
  by_cases h1 : c = ' '
  · subst h1; exact absurd h (by decide)
  by_cases h2 : c = newlineChar
  · subst h2; exact absurd h (by decide)
  by_cases h3 : c = Char.ofNat 9
  · subst h3; exact absurd h (by decide)
  by_cases h4 : c = Char.ofNat 13
  · subst h4; exact absurd h (by decide)
  simp [isWS, h1, h2, h3, h4]

theorem serVal_cons (v : Json) :
    ∃ c t, serVal v = c :: t ∧ c ≠ rbrackChar ∧ c ≠ rbraceChar ∧ isWS c = false := by
  cases v with
  | null => exact ⟨'n', ['u', 'l', 'l'], by simp [serVal, nullChars], by decide, by decide, by decide⟩
  | bool b =>
    cases b with
    | true => exact ⟨'t', ['r', 'u', 'e'], by simp [serVal, trueChars], by decide, by decide, by decide⟩
    | false => exact ⟨'f', ['a', 'l', 's', 'e'], by simp [serVal, falseChars], by decide, by decide, by decide⟩
  | num q =>
    by_cases hlt : q.num < 0
    · exact ⟨'-', serNat q.num.natAbs, by simp [serVal, serInt, hlt], by decide, by decide, by decide⟩
    · obtain ⟨c, t, hct, hdig⟩ := serNat_cons q.num.toNat
      refine ⟨c, t, ?_, isDigit_ne hdig (by decide), isDigit_ne hdig (by decide), isDigit_isWS hdig⟩
      simp [serVal, serInt, hlt, hct]
  | str s => exact ⟨quoteChar, s ++ [quoteChar], by simp [serVal], by decide, by decide, by decide⟩
  | arr l =>
    cases l with
    | anil => exact ⟨lbrackChar, [rbrackChar], by simp [serVal], by decide, by decide, by decide⟩
    | acons w tl =>
      exact ⟨lbrackChar, serItemsNE (.acons w tl), by simp [serVal], by decide, by decide, by decide⟩
  | obj o =>
    cases o with
    | onil => exact ⟨lbraceChar, [rbraceChar], by simp [serVal], by decide, by decide, by decide⟩
    | ocons k w tl =>
      exact ⟨lbraceChar, serMembersNE (.ocons k w tl), by simp [serVal], by decide, by decide, by decide⟩

theorem serItemsNE_concat : (l : JsonArr) → ∃ t, serItemsNE l = t ++ [rbrackChar]
  | .anil => ⟨[], rfl⟩
  | .acons v .anil => ⟨serVal v, by simp [serItemsNE]⟩
  | .acons v (.acons w tl) => by
    obtain ⟨t, ht⟩ := serItemsNE_concat (.acons w tl)
    exact ⟨serVal v ++ (',' :: t), by simp [serItemsNE, ht]⟩

theorem serMembersNE_concat : (o : JsonObj) → ∃ t, serMembersNE o = t ++ [rbraceChar]
  | .onil => ⟨[], rfl⟩
  | .ocons k v .onil =>
    ⟨(quoteChar :: (k ++ [quoteChar])) ++ (':' :: serVal v), by simp [serMembersNE]⟩
  | .ocons k v (.ocons k2 w tl) => by
    obtain ⟨t, ht⟩ := serMembersNE_concat (.ocons k2 w tl)
    exact ⟨(quoteChar :: (k ++ [quoteChar])) ++ (':' :: (serVal v ++ (',' :: t))),
      by simp [serMembersNE, ht]⟩

theorem serVal_concat (v : Json) : ∃ t c, serVal v = t ++ [c] ∧ isWS c = false := by
  cases v with
  | null => exact ⟨['n', 'u', 'l'], 'l', by simp [serVal, nullChars], by decide⟩
  | bool b =>
    cases b with
    | true => exact ⟨['t', 'r', 'u'], 'e', by simp [serVal, trueChars], by decide⟩
    | false => exact ⟨['f', 'a', 'l', 's'], 'e', by simp [serVal, falseChars], by decide⟩
  | num q =>
    by_cases hlt : q.num < 0
    · obtain ⟨t, c, htc, hdig⟩ := serNat_last q.num.natAbs
      exact ⟨'-' :: t, c, by simp [serVal, serInt, hlt, htc], isDigit_isWS hdig⟩
    · obtain ⟨t, c, htc, hdig⟩ := serNat_last q.num.toNat
      exact ⟨t, c, by simp [serVal, serInt, hlt, htc], isDigit_isWS hdig⟩
  | str s => exact ⟨quoteChar :: s, quoteChar, by simp [serVal], by decide⟩
  | arr l =>
    cases l with
    | anil => exact ⟨[lbrackChar], rbrackChar, by simp [serVal], by decide⟩
    | acons w tl =>
      obtain ⟨t, ht⟩ := serItemsNE_concat (.acons w tl)
      exact ⟨lbrackChar :: t, rbrackChar, by simp [serVal, ht], by decide⟩
  | obj o =>
    cases o with
    | onil => exact ⟨[lbraceChar], rbraceChar, by simp [serVal], by decide⟩
    | ocons k w tl =>
      obtain ⟨t, ht⟩ := serMembersNE_concat (.ocons k w tl)
      exact ⟨lbraceChar :: t, rbraceChar, by simp [serVal, ht], by decide⟩

theorem parse_ser_all (fuel : Nat) :
    (∀ v rest, wfJson v = true → jsize v ≤ fuel → notDigitStart rest = true →
      parseVal fuel (serVal v ++ rest) = some (v, rest)) ∧
    (∀ l rest, l ≠ JsonArr.anil → wfArr l = true → asize l ≤ fuel →
      parseItems fuel (serItemsNE l ++ rest) = some (l, rest)) ∧
    (∀ o rest, o ≠ JsonObj.onil → wfObj o = true → osize o ≤ fuel →
      parseMembers fuel (serMembersNE o ++ rest) = some (o, rest)) := by
  induction fuel with
  | zero =>
    refine ⟨fun v rest _ hsz _ => ?_, fun l rest hne _ hsz => ?_, fun o rest hne _ hsz => ?_⟩
    · cases v <;> simp only [jsize] at hsz <;> omega
    · cases l with
      | anil => exact absurd rfl hne
      | acons v tl => simp only [asize] at hsz; omega
    · cases o with
      | onil => exact absurd rfl hne
      | ocons k v tl => simp only [osize] at hsz; omega
  | succ fuel ih =>
    obtain ⟨ihv, ihi, ihm⟩ := ih
    refine ⟨?_, ?_, ?_⟩
    · intro v rest hwf hsz hnd
      cases v with
      | null => simp [serVal, nullChars, parseVal]
      | bool b => cases b <;> simp [serVal, trueChars, falseChars, parseVal]
      | str s =>
        have hqb : quoteChar ∉ s ∧ backslashChar ∉ s := by
          simpa [wfJson, Bool.and_eq_true] using hwf
        simp only [serVal, List.cons_append, List.append_assoc, List.singleton_append]
        simp only [parseVal]
        rw [if_neg (by decide), if_neg (by decide), if_neg (by decide)]
        simp only [eq_self_iff_true, if_true, List.nil_append]
        rw [parseStrBody_spec s rest hqb.1 hqb.2]
      | num q =>
        have hden : q.den = 1 := by simpa [wfJson] using hwf
        by_cases hlt : q.num < 0
        · have hser : serVal (.num q) = '-' :: serNat q.num.natAbs := by
            simp [serVal, serInt, hlt]
          rw [hser, List.cons_append]
          simp only [parseVal]
          rw [if_neg (by decide), if_neg (by decide), if_neg (by decide), if_neg (by decide)]
          simp only [eq_self_iff_true, if_true]
          rw [parseDigits_serNat _ _ hnd]
          show some (Json.num (-((q.num.natAbs : ℕ) : ℚ)), rest) = some (Json.num q, rest)
          have hval : -((q.num.natAbs : ℕ) : ℚ) = q := by
            have h1 : ((q.num.natAbs : ℤ)) = -q.num := by omega
            have h2 : ((q.num.natAbs : ℕ) : ℚ) = ((q.num.natAbs : ℤ) : ℚ) :=
              (Int.cast_natCast q.num.natAbs).symm
            rw [h2, h1, Int.cast_neg, neg_neg]
            exact Rat.coe_int_num_of_den_eq_one hden
          rw [hval]
        · obtain ⟨c, t, hct, hdig⟩ := serNat_cons q.num.toNat
          have hser : serVal (.num q) = serNat q.num.toNat := by
            simp [serVal, serInt, hlt]
          rw [hser, hct, List.cons_append]
          simp only [parseVal]
          rw [if_neg (isDigit_ne hdig (by decide)), if_neg (isDigit_ne hdig (by decide)),
            if_neg (isDigit_ne hdig (by decide)), if_neg (isDigit_ne hdig (by decide)),
            if_neg (isDigit_ne hdig (by decide)), if_neg (isDigit_ne hdig (by decide)),
            if_neg (isDigit_ne hdig (by decide)), if_pos hdig]
          rw [show c :: (t ++ rest) = (c :: t) ++ rest from rfl, ← hct, parseDigits_serNat _ _ hnd]
          show some (Json.num ((q.num.toNat : ℕ) : ℚ), rest) = some (Json.num q, rest)
          have hval : ((q.num.toNat : ℕ) : ℚ) = q := by
            have h1 : ((q.num.toNat : ℤ) : ℚ) = (q.num : ℚ) := by
              rw [Int.toNat_of_nonneg (by omega)]
            have h2 : ((q.num.toNat : ℤ) : ℚ) = ((q.num.toNat : ℕ) : ℚ) :=
              Int.cast_natCast q.num.toNat
            rw [← h2, h1, Rat.coe_int_num_of_den_eq_one hden]
          rw [hval]
      | arr l =>
        cases l with
        | anil =>
          have hser : serVal (Json.arr JsonArr.anil) = lbrackChar :: [rbrackChar] := by
            simp [serVal]
          rw [hser, List.cons_append, List.singleton_append]
          simp only [parseVal]
          rw [if_neg (by decide), if_neg (by decide), if_neg (by decide), if_neg (by decide),
            if_neg (by decide)]
          simp only [eq_self_iff_true, if_true]
        | acons w tl =>
          obtain ⟨c2, t2, hct, hcr, hcb, hcw⟩ := serVal_cons w
          have hhead : ∃ t3, serItemsNE (JsonArr.acons w tl) = c2 :: t3 := by
            cases tl with
            | anil => exact ⟨t2 ++ [rbrackChar], by simp [serItemsNE, hct]⟩
            | acons w2 tl2 =>
              exact ⟨t2 ++ (',' :: serItemsNE (JsonArr.acons w2 tl2)), by simp [serItemsNE, hct]⟩
          obtain ⟨t3, ht3⟩ := hhead
          have hser : serVal (Json.arr (JsonArr.acons w tl)) = lbrackChar :: (c2 :: t3) := by
            simp [serVal, ht3]
          rw [hser, List.cons_append, List.cons_append]
          simp only [parseVal]
          rw [if_neg (by decide), if_neg (by decide), if_neg (by decide), if_neg (by decide),
            if_neg (by decide)]
          simp only [eq_self_iff_true, if_true]
          rw [if_neg hcr]
          have hre : c2 :: (t3 ++ rest) = serItemsNE (JsonArr.acons w tl) ++ rest := by
            rw [ht3]; rfl
          rw [hre, ihi (JsonArr.acons w tl) rest (by simp) (by simpa [wfJson] using hwf)
            (by simp only [jsize] at hsz; omega)]
      | obj o =>
        cases o with
        | onil =>
          have hser : serVal (Json.obj JsonObj.onil) = lbraceChar :: [rbraceChar] := by
            simp [serVal]
          rw [hser, List.cons_append, List.singleton_append]
          simp only [parseVal]
          rw [if_neg (by decide), if_neg (by decide), if_neg (by decide), if_neg (by decide),
            if_neg (by decide), if_neg (by decide)]
          simp only [eq_self_iff_true, if_true]
        | ocons k w tl =>
          have hhead : ∃ t3, serMembersNE (JsonObj.ocons k w tl) = quoteChar :: t3 := by
            cases tl with
            | onil =>
              exact ⟨(k ++ [quoteChar]) ++ (':' :: (serVal w ++ [rbraceChar])),
                by simp [serMembersNE]⟩
            | ocons k2 w2 tl2 =>
              exact ⟨(k ++ [quoteChar]) ++
                (':' :: (serVal w ++ (',' :: serMembersNE (JsonObj.ocons k2 w2 tl2)))),
                by simp [serMembersNE]⟩
          obtain ⟨t3, ht3⟩ := hhead
          have hser : serVal (Json.obj (JsonObj.ocons k w tl)) = lbraceChar :: (quoteChar :: t3) := by
            simp [serVal, ht3]
          rw [hser, List.cons_append, List.cons_append]
          simp only [parseVal]
          rw [if_neg (by decide), if_neg (by decide), if_neg (by decide), if_neg (by decide),
            if_neg (by decide), if_neg (by decide)]
          simp only [eq_self_iff_true, if_true]
          rw [if_neg (by decide)]
          have hre : quoteChar :: (t3 ++ rest) = serMembersNE (JsonObj.ocons k w tl) ++ rest := by
            rw [ht3]; rfl
          rw [hre, ihm (JsonObj.ocons k w tl) rest (by simp) (by simpa [wfJson] using hwf)
            (by simp only [jsize] at hsz; omega)]
    · intro l rest hne hwf hsz
      cases l with
      | anil => exact absurd rfl hne
      | acons v tl =>
        have hwf2 : wfJson v = true ∧ wfArr tl = true := by
          simpa [wfArr, Bool.and_eq_true] using hwf
        cases tl with
        | anil =>
          have heq : serItemsNE (JsonArr.acons v .anil) ++ rest
              = serVal v ++ (rbrackChar :: rest) := by
            simp [serItemsNE]
          rw [heq]
          simp only [parseItems]
          rw [ihv v (rbrackChar :: rest) hwf2.1 (by simp only [asize] at hsz; omega) (by rfl)]
          rfl
        | acons w tl2 =>
          have heq : serItemsNE (JsonArr.acons v (JsonArr.acons w tl2)) ++ rest
              = serVal v ++ (',' :: (serItemsNE (JsonArr.acons w tl2) ++ rest)) := by
            simp [serItemsNE]
          rw [heq]
          simp only [parseItems]
          rw [ihv v _ hwf2.1 (by simp only [asize] at hsz; omega) (by rfl)]
          simp only [eq_self_iff_true, if_true]
          rw [ihi (JsonArr.acons w tl2) rest (by simp) hwf2.2
            (by simp only [asize] at hsz ⊢; omega)]
    · intro o rest hne hwf hsz
      cases o with
      | onil => exact absurd rfl hne
      | ocons k v tl =>
        have hwf2 : (quoteChar ∉ k) ∧ (backslashChar ∉ k) ∧ wfJson v = true ∧ wfObj tl = true := by
          simpa [wfObj, Bool.and_eq_true, and_assoc] using hwf
        cases tl with
        | onil =>
          have heq : serMembersNE (JsonObj.ocons k v .onil) ++ rest
              = quoteChar :: (k ++ (quoteChar :: (':' :: (serVal v ++ (rbraceChar :: rest))))) := by
            simp [serMembersNE]
          rw [heq]
          simp only [parseMembers]
          simp only [eq_self_iff_true, if_true]
          rw [show k ++ (quoteChar :: (':' :: (serVal v ++ (rbraceChar :: rest))))
              = k ++ (quoteChar :: ((':' :: (serVal v ++ (rbraceChar :: rest))))) from rfl,
            parseStrBody_spec k _ hwf2.1 hwf2.2.1]
          simp only [eq_self_iff_true, if_true]
          rw [ihv v (rbraceChar :: rest) hwf2.2.2.1 (by simp only [osize] at hsz; omega) (by rfl)]
          rfl
        | ocons k2 w tl2 =>
          have heq : serMembersNE (JsonObj.ocons k v (JsonObj.ocons k2 w tl2)) ++ rest
              = quoteChar :: (k ++ (quoteChar :: (':' :: (serVal v ++
                  (',' :: (serMembersNE (JsonObj.ocons k2 w tl2) ++ rest)))))) := by
            simp [serMembersNE]
          rw [heq]
          simp only [parseMembers]
          simp only [eq_self_iff_true, if_true]
          rw [parseStrBody_spec k _ hwf2.1 hwf2.2.1]
          simp only [eq_self_iff_true, if_true]
          rw [ihv v _ hwf2.2.2.1 (by simp only [osize] at hsz; omega) (by rfl)]
          simp only [eq_self_iff_true, if_true]
          rw [ihm (JsonObj.ocons k2 w tl2) rest (by simp) hwf2.2.2.2
            (by simp only [osize] at hsz ⊢; omega)]

theorem sizes_le_len (n : Nat) :
    (∀ v : Json, jsize v ≤ n → jsize v ≤ (serVal v).length) ∧
    (∀ l : JsonArr, l ≠ .anil → asize l ≤ n → asize l ≤ (serItemsNE l).length) ∧
    (∀ o : JsonObj, o ≠ .onil → osize o ≤ n → osize o ≤ (serMembersNE o).length) := by
  induction n with
  | zero =>
    refine ⟨fun v hsz => ?_, fun l hne hsz => ?_, fun o hne hsz => ?_⟩
    · cases v <;> simp only [jsize] at hsz <;> omega
    · cases l with
      | anil => exact absurd rfl hne
      | acons v tl => simp only [asize] at hsz; omega
    · cases o with
      | onil => exact absurd rfl hne
      | ocons k v tl => simp only [osize] at hsz; omega
  | succ n ih =>
    obtain ⟨ihv, ihi, ihm⟩ := ih
    refine ⟨?_, ?_, ?_⟩
    · intro v hsz
      cases v with
      | null => simp [jsize, serVal, nullChars]
      | bool b => cases b <;> simp [jsize, serVal, trueChars, falseChars]
      | num q =>
        obtain ⟨c, t, hct, -, -, -⟩ := serVal_cons (.num q)
        simp [jsize, hct]
      | str s =>
        obtain ⟨c, t, hct, -, -, -⟩ := serVal_cons (.str s)
        simp [jsize, hct]
      | arr l =>
        cases l with
        | anil => simp [jsize, asize, serVal]
        | acons w tl =>
          have h := ihi (JsonArr.acons w tl) (by simp) (by simp only [jsize] at hsz; omega)
          simp only [jsize, serVal, List.length_cons]
          omega
      | obj o =>
        cases o with
        | onil => simp [jsize, osize, serVal]
        | ocons k w tl =>
          have h := ihm (JsonObj.ocons k w tl) (by simp) (by simp only [jsize] at hsz; omega)
          simp only [jsize, serVal, List.length_cons]
          omega
    · intro l hne hsz
      cases l with
      | anil => exact absurd rfl hne
      | acons v tl =>
        have hv := ihv v (by simp only [asize] at hsz; omega)
        cases tl with
        | anil =>
          simp only [asize, serItemsNE, List.length_append, List.length_cons,
            List.length_nil] at *
          omega
        | acons w tl2 =>
          have ht := ihi (JsonArr.acons w tl2) (by simp) (by simp only [asize] at hsz ⊢; omega)
          simp only [asize, serItemsNE, List.length_append, List.length_cons] at *
          omega
    · intro o hne hsz
      cases o with
      | onil => exact absurd rfl hne
      | ocons k v tl =>
        have hv := ihv v (by simp only [osize] at hsz; omega)
        cases tl with
        | onil =>
          simp only [osize, serMembersNE, List.length_append, List.length_cons,
            List.length_nil] at *
          omega
        | ocons k2 w tl2 =>
          have ht := ihm (JsonObj.ocons k2 w tl2) (by simp) (by simp only [osize] at hsz ⊢; omega)
          simp only [osize, serMembersNE, List.length_append, List.length_cons] at *
          omega

theorem jsize_le_length (v : Json) : jsize v ≤ (serVal v).length :=
  (sizes_le_len (jsize v)).1 v le_rfl

/-- Round trip through the parser: the serialization of any well-formed
value in the modelled fragment loads back to the same value. -/
theorem jsonLoads_serVal (v : Json) (hwf : wfJson v = true) : jsonLoads (serVal v) = some v := by
  have h := (parse_ser_all ((serVal v).length + 1)).1 v [] hwf
    (le_trans (jsize_le_length v) (by omega)) rfl
  rw [List.append_nil] at h
  simp [jsonLoads, h]

theorem isPrefixOf_append_self (l t : List Char) : l.isPrefixOf (l ++ t) = true := by
  induction l with
  | nil => simp [List.isPrefixOf]
  | cons c cs ih => simp [List.isPrefixOf, ih]

theorem findSub_locate {p : Char} (pt t1 t2 : List Char) (h : p ∉ t1) :
    findSub (p :: pt) (t1 ++ ((p :: pt) ++ t2)) = some t1.length := by
  induction t1 with
  | nil =>
    have hp : (p :: pt).isPrefixOf ((p :: pt) ++ t2) = true := isPrefixOf_append_self _ _
    simp [findSub, hp]
  | cons c cs ih =>
    have hcp : (p == c) = false := by
      simp only [beq_eq_false_iff_ne, ne_eq]
      intro heq
      exact h (heq ▸ List.mem_cons_self _ _)
    simp only [List.cons_append, findSub, List.isPrefixOf, hcp, Bool.false_and,
      List.length_cons, List.append_eq]
    rw [if_neg (by simp)]
    have ih2 := ih (fun hm => h (List.mem_cons_of_mem _ hm))
    rw [List.cons_append] at ih2
    rw [ih2]
    rfl

theorem findSub_absent {p : Char} (pt t : List Char) (h : p ∉ t) :
    findSub (p :: pt) t = none := by
  induction t with
  | nil => rfl
  | cons c cs ih =>
    have hcp : (p == c) = false := by
      simp only [beq_eq_false_iff_ne, ne_eq]
      intro heq
      exact h (heq ▸ List.mem_cons_self _ _)
    simp [findSub, List.isPrefixOf, hcp, ih (fun hm => h (List.mem_cons_of_mem _ hm))]

theorem pySlice_exact (pre mid post : List Char) :
    pySlice (pre ++ mid ++ post) (pre.length : Int) ((pre.length + mid.length : Nat) : Int)
      = mid := by
  have hlen : (pre ++ mid ++ post).length = pre.length + mid.length + post.length := by
    simp [List.length_append]
    omega
  simp only [pySlice, pyNormIdx]
  rw [if_neg (by omega), if_neg (by omega)]
  have h1 : min ((pre.length + mid.length : Nat) : Int).toNat (pre ++ mid ++ post).length
      = pre.length + mid.length := by
    simp only [Int.toNat_natCast, hlen]
    omega
  have h2 : min ((pre.length : Nat) : Int).toNat (pre ++ mid ++ post).length = pre.length := by
    simp only [Int.toNat_natCast, hlen]
    omega
  rw [h1, h2]
  have h3 : (pre ++ mid ++ post).take (pre.length + mid.length) = pre ++ mid := by
    have : pre.length + mid.length = (pre ++ mid).length := by simp
    rw [this, List.take_left]
  rw [h3, List.drop_left]

theorem pyRFindChar_locate (c : Char) (t1 t2 : List Char) (h : c ∉ t2) :
    pyRFindChar c ((t1 ++ [c]) ++ t2) = (t1.length : Int) := by
  have hrev : ((t1 ++ [c]) ++ t2).reverse = t2.reverse ++ ((c :: []) ++ t1.reverse) := by
    simp
  have hfind : findSub [c] (((t1 ++ [c]) ++ t2).reverse) = some t2.reverse.length := by
    rw [hrev]
    exact findSub_locate [] t2.reverse t1.reverse (by simpa using h)
  simp only [pyRFindChar, hfind]
  have hlen : ((t1 ++ [c]) ++ t2).length = t1.length + 1 + t2.length := by simp; omega
  rw [hlen]
  simp only [List.length_reverse]
  congr 1
  omega

theorem pyStrip_wrap (s : List Char) (hhead : ∃ c t, s = c :: t ∧ isWS c = false)
    (hlast : ∃ u d, s = u ++ [d] ∧ isWS d = false) :
    pyStrip (newlineChar :: (s ++ [newlineChar])) = s := by
  obtain ⟨c, t, hct, hc⟩ := hhead
  obtain ⟨u, d, hud, hd⟩ := hlast
  have h1 : List.dropWhile isWS (newlineChar :: (s ++ [newlineChar])) = s ++ [newlineChar] := by
    rw [List.dropWhile_cons, if_pos (by decide), hct, List.cons_append, List.dropWhile_cons,
      if_neg (by simp [hc]), ← List.cons_append, ← hct]
  have h2 : (s ++ [newlineChar]).reverse = newlineChar :: s.reverse := by simp
  have h3 : List.dropWhile isWS s.reverse = s.reverse := by
    rw [hud]
    simp only [List.reverse_append, List.reverse_singleton, List.singleton_append]
    rw [List.dropWhile_cons, if_neg (by simp [hd])]
  simp only [pyStrip, h1, h2, List.dropWhile_cons, if_pos (by decide : isWS newlineChar = true),
    h3, List.reverse_reverse]

theorem extract_fenced (O : Json) (pre post : List Char)
    (hpre : backtickChar ∉ pre) (hser : backtickChar ∉ serVal O) :
    extract_json_text
        (pre ++ (fenceTag ++ ((newlineChar :: (serVal O ++ [newlineChar])) ++ (fence3 ++ post))))
      = serVal O := by
  set mid : List Char := newlineChar :: (serVal O ++ [newlineChar]) with hmid
  set t : List Char := pre ++ (fenceTag ++ (mid ++ (fence3 ++ post))) with ht
  have hfind : findSub fenceTag t = some pre.length := by
    have h := findSub_locate (backtickChar :: backtickChar :: ('j' :: 's' :: 'o' :: 'n' :: []))
      pre (mid ++ (fence3 ++ post)) hpre
    exact h
  have hpf : pyFind fenceTag t = (pre.length : Int) := by simp [pyFind, hfind]
  have hmlen : mid.length = (serVal O).length + 2 := by simp [hmid]
  have htlen : t.length = pre.length + 7 + mid.length + 3 + post.length := by
    simp [ht, fenceTag, fence3]
    omega
  have hstart : pyFind fenceTag t + 7 = ((pre.length + 7 : Nat) : Int) := by
    rw [hpf]; push_cast; ring
  have hnorm : pyNormIdx t.length ((pre.length + 7 : Nat) : Int) = pre.length + 7 := by
    simp only [pyNormIdx, Int.toNat_natCast]
    rw [if_neg (by omega)]
    omega
  have hshape : t = (pre ++ fenceTag) ++ (mid ++ (fence3 ++ post)) := by
    simp [ht, List.append_assoc]
  have hdrop : t.drop (pre.length + 7) = mid ++ (fence3 ++ post) := by
    rw [hshape, show pre.length + 7 = (pre ++ fenceTag).length from by simp [fenceTag]]
    exact List.drop_left _ _
  have hmid_free : backtickChar ∉ mid := by
    simp only [hmid, List.mem_cons, List.mem_append, List.mem_singleton]
    rintro (h | h | h)
    · exact absurd h (by decide)
    · exact hser h
    · exact absurd h (by decide)
  have hfind3 : findSub fence3 (mid ++ (fence3 ++ post)) = some mid.length := by
    have h := findSub_locate (backtickChar :: backtickChar :: []) mid post hmid_free
    exact h
  have hff : pyFindFrom fence3 t ((pre.length + 7 : Nat) : Int)
      = ((pre.length + 7 + mid.length : Nat) : Int) := by
    simp only [pyFindFrom, hnorm, hdrop, hfind3]
  have hslice : pySlice t ((pre.length + 7 : Nat) : Int) ((pre.length + 7 + mid.length : Nat) : Int)
      = mid := by
    have hshape2 : t = ((pre ++ fenceTag) ++ mid) ++ (fence3 ++ post) := by
      simp [ht, List.append_assoc]
    have h := pySlice_exact (pre ++ fenceTag) mid (fence3 ++ post)
    rw [← hshape2] at h
    have hl : (pre ++ fenceTag).length = pre.length + 7 := by simp [fenceTag]
    rw [hl] at h
    exact h
  have hstrip : pyStrip mid = serVal O := by
    have hh := serVal_cons O
    have hl := serVal_concat O
    exact pyStrip_wrap (serVal O) (by
      obtain ⟨c, u, hcu, -, -, hw⟩ := hh
      exact ⟨c, u, hcu, hw⟩) (by
      obtain ⟨u, d, hud, hw⟩ := hl
      exact ⟨u, d, hud, hw⟩)
  have hsome : (findSub fenceTag t).isSome := by rw [hfind]; rfl
  rw [show extract_json_text t
      = pyStrip (pySlice t (pyFind fenceTag t + 7) (pyFindFrom fence3 t (pyFind fenceTag t + 7)))
    from by rw [extract_json_text, if_pos hsome]]
  rw [hstart, hff, hslice, hstrip]

theorem serObj_head (o : JsonObj) : ∃ su, serVal (Json.obj o) = lbraceChar :: su := by
  cases o with
  | onil => exact ⟨[rbraceChar], by simp [serVal]⟩
  | ocons k v tl => exact ⟨serMembersNE (JsonObj.ocons k v tl), by simp [serVal]⟩

theorem serObj_last (o : JsonObj) : ∃ u2, serVal (Json.obj o) = u2 ++ [rbraceChar] := by
  cases o with
  | onil => exact ⟨[lbraceChar], by simp [serVal]⟩
  | ocons k v tl =>
    obtain ⟨t, ht⟩ := serMembersNE_concat (JsonObj.ocons k v tl)
    exact ⟨lbraceChar :: t, by simp [serVal, ht]⟩

theorem extract_prose (o : JsonObj) (pre post : List Char)
    (hfence : findSub fenceTag (pre ++ (serVal (Json.obj o) ++ post)) = none)
    (hpre : lbraceChar ∉ pre) (hpost : rbraceChar ∉ post) :
    extract_json_text (pre ++ (serVal (Json.obj o) ++ post)) = serVal (Json.obj o) := by
  set ser : List Char := serVal (Json.obj o) with hser
  set t : List Char := pre ++ (ser ++ post) with ht
  obtain ⟨su, hsu⟩ := serObj_head o
  obtain ⟨u2, hu2⟩ := serObj_last o
  have hserlen : ser.length = u2.length + 1 := by rw [hser, hu2]; simp
  have hfind1 : findSub [lbraceChar] t = some pre.length := by
    have hsh : t = pre ++ ((lbraceChar :: []) ++ (su ++ post)) := by
      simp [ht, hser, hsu]
    rw [hsh]
    exact findSub_locate [] pre (su ++ post) hpre
  have hpf : pyFind [lbraceChar] t = (pre.length : Int) := by simp [pyFind, hfind1]
  have hrf : pyRFindChar rbraceChar t = ((pre.length + u2.length : Nat) : Int) := by
    have hsh : t = ((pre ++ u2) ++ [rbraceChar]) ++ post := by
      simp [ht, hser, hu2, List.append_assoc]
    rw [hsh]
    have h := pyRFindChar_locate rbraceChar (pre ++ u2) post hpost
    rw [h]
    simp
  have hslice : pySlice t ((pre.length : Nat) : Int) ((pre.length + ser.length : Nat) : Int)
      = ser := by
    have hsh : t = (pre ++ ser) ++ post := by simp [ht, List.append_assoc]
    have h := pySlice_exact pre ser post
    rw [← hsh] at h
    exact h
  have hnone : ¬ (findSub fenceTag t).isSome := by
    rw [show findSub fenceTag t = none from hfence]
    simp
  rw [show extract_json_text t
      = pySlice t (pyFind [lbraceChar] t) (pyRFindChar rbraceChar t + 1)
    from by rw [extract_json_text, if_neg hnone]]
  rw [hpf, hrf]
  have hend : ((pre.length + u2.length : Nat) : Int) + 1 = ((pre.length + ser.length : Nat) : Int) := by
    rw [hserlen]; push_cast; ring
  rw [hend]
  exact hslice

theorem insertPair_sorted (p : ℚ × Json) (l : List (ℚ × Json)) (h : KeySorted l) :
    KeySorted (insertPair p l) := by
  induction l with
  | nil => simp [insertPair, KeySorted]
  | cons q qs ih =>
    by_cases hq : q.1 < p.1
    · have htl : KeySorted qs := (List.chain'_cons'.mp h).2
      have hins := ih htl
      simp only [insertPair, if_pos hq]
      rw [KeySorted, List.chain'_cons']
      refine ⟨?_, hins⟩
      intro y hy
      cases hqs : insertPair p qs with
      | nil => simp [hqs] at hy
      | cons z zs =>
        rw [hqs] at hy
        simp only [List.head?_cons, Option.mem_def, Option.some_inj] at hy
        subst hy
        cases qs with
        | nil =>
          simp only [insertPair] at hqs
          cases hqs
          exact le_of_lt hq
        | cons w ws =>
          simp only [insertPair] at hqs
          by_cases hw : w.1 < p.1
          · rw [if_pos hw] at hqs
            cases hqs
            exact (List.chain'_cons.mp h).1
          · rw [if_neg hw] at hqs
            cases hqs
            exact le_of_lt hq
    · simp only [insertPair, if_neg hq]
      rw [KeySorted, List.chain'_cons]
      exact ⟨le_of_not_lt hq, h⟩

theorem insertionSortPairs_sorted (l : List (ℚ × Json)) :
    KeySorted (insertionSortPairs l) := by
  induction l with
  | nil => simp [insertionSortPairs, KeySorted]
  | cons p ps ih => exact insertPair_sorted p _ ih

theorem insertPair_of_sorted_cons (p : ℚ × Json) (l : List (ℚ × Json))
    (h : KeySorted (p :: l)) : insertPair p l = p :: l := by
  cases l with
  | nil => rfl
  | cons q qs =>
    have hpq : p.1 ≤ q.1 := (List.chain'_cons.mp h).1
    simp [insertPair, not_lt.mpr hpq]

theorem insertionSortPairs_of_sorted (l : List (ℚ × Json)) (h : KeySorted l) :
    insertionSortPairs l = l := by
  induction l with
  | nil => rfl
  | cons p ps ih =>
    have htl : KeySorted ps := (List.chain'_cons'.mp h).2
    simp only [insertionSortPairs, ih htl]
    exact insertPair_of_sorted_cons p ps h

theorem insertionSortPairs_idem (l : List (ℚ × Json)) :
    insertionSortPairs (insertionSortPairs l) = insertionSortPairs l :=
  insertionSortPairs_of_sorted _ (insertionSortPairs_sorted l)

theorem filter_insertPair (p : ℚ × Json) (l : List (ℚ × Json)) (k : ℚ) :
    (insertPair p l).filter (fun q => decide (q.1 = k))
      = if p.1 = k then p :: l.filter (fun q => decide (q.1 = k))
        else l.filter (fun q => decide (q.1 = k)) := by
  induction l with
  | nil =>
    by_cases hp : p.1 = k <;> simp [insertPair, List.filter, hp]
  | cons q qs ih =>
    by_cases hq : q.1 < p.1
    · simp only [insertPair, if_pos hq, List.filter_cons]
      by_cases hp : p.1 = k
      · have hqk : ¬ (q.1 = k) := by intro h2; rw [hp] at hq; exact absurd (h2 ▸ hq) (lt_irrefl k)
        simp [ih, hp, hqk]
      · simp [ih, hp]
    · simp only [insertPair, if_neg hq, List.filter_cons]
      by_cases hp : p.1 = k <;> simp [hp]

theorem insertionSortPairs_stable (l : List (ℚ × Json)) (k : ℚ) :
    (insertionSortPairs l).filter (fun q => decide (q.1 = k))
      = l.filter (fun q => decide (q.1 = k)) := by
  induction l with
  | nil => rfl
  | cons p ps ih =>
    simp only [insertionSortPairs, filter_insertPair, List.filter_cons]
    by_cases hp : p.1 = k <;> simp [hp, ih]

theorem insertPair_perm (p : ℚ × Json) (l : List (ℚ × Json)) :
    List.Perm (insertPair p l) (p :: l) := by
  induction l with
  | nil => rfl
  | cons q qs ih =>
    by_cases hq : q.1 < p.1
    · simp only [insertPair, if_pos hq]
      exact ((ih.cons q).trans (List.Perm.swap p q qs))
    · simp [insertPair, if_neg hq]

theorem insertionSortPairs_perm (l : List (ℚ × Json)) :
    List.Perm (insertionSortPairs l) l := by
  induction l with
  | nil => rfl
  | cons p ps ih => exact (insertPair_perm p _).trans (ih.cons p)

theorem traverseOption_forall2 {f : α → Option β} :
    ∀ {xs : List α} {ys : List β}, traverseOption f xs = some ys →
      List.Forall₂ (fun x y => f x = some y) xs ys := by
  intro xs
  induction xs with
  | nil =>
    intro ys h
    simp only [traverseOption, Option.some_inj] at h
    subst h
    exact List.Forall₂.nil
  | cons x xs ih =>
    intro ys h
    simp only [traverseOption] at h
    cases hfx : f x with
    | none => rw [hfx] at h; exact absurd h (by simp)
    | some y =>
      rw [hfx] at h
      cases hxs : traverseOption f xs with
      | none => rw [hxs] at h; exact absurd h (by simp)
      | some ys2 =>
        rw [hxs] at h
        simp only [Option.some_inj] at h
        subst h
        exact List.Forall₂.cons hfx (ih hxs)

theorem traverseOption_of_forall2 {f : α → Option β} :
    ∀ {xs : List α} {ys : List β}, List.Forall₂ (fun x y => f x = some y) xs ys →
      traverseOption f xs = some ys := by
  intro xs ys h
  induction h with
  | nil => rfl
  | cons hxy htl ih => simp [traverseOption, hxy, ih]

theorem traverseKeys_spec (l : List Json) (ps : List (ℚ × Json))
    (h : traverseKeys l = some ps) :
    ps.map Prod.snd = l ∧ ∀ p ∈ ps, sortKey p.2 = some p.1 := by
  have h2 := traverseOption_forall2 h
  constructor
  · clear h
    induction h2 with
    | nil => rfl
    | cons hxy htl ih =>
      next x y _ _ =>
        cases hk : sortKey x with
        | none => rw [hk] at hxy; exact absurd hxy (by simp)
        | some k =>
          rw [hk] at hxy
          simp only [Option.map_some', Option.some_inj] at hxy
          subst hxy
          simp [ih]
  · clear h
    induction h2 with
    | nil => intro p hp; simp at hp
    | cons hxy htl ih =>
      next x y _ _ =>
        intro p hp
        rcases List.mem_cons.mp hp with rfl | hp2
        · cases hk : sortKey x with
          | none => rw [hk] at hxy; exact absurd hxy (by simp)
          | some k =>
            rw [hk] at hxy
            simp only [Option.map_some', Option.some_inj] at hxy
            subst hxy
            exact hk
        · exact ih p hp2

theorem traverseKeys_of_spec (ps : List (ℚ × Json))
    (h : ∀ p ∈ ps, sortKey p.2 = some p.1) :
    traverseKeys (ps.map Prod.snd) = some ps := by
  induction ps with
  | nil => rfl
  | cons p ps ih =>
    have hp := h p (List.mem_cons_self _ _)
    have htl := ih (fun q hq => h q (List.mem_cons_of_mem _ hq))
    simp only [List.map_cons, traverseKeys, traverseOption, hp, Option.map_some', Prod.mk.eta]
    rw [show traverseOption (fun s => (sortKey s).map (fun k => (k, s))) (ps.map Prod.snd)
        = some ps from htl]

theorem objGet_objSet_self : (m : JsonObj) → (k : List Char) → (v : Json) →
    objGet (objSet m k v) k = some v
  | .onil, k, v => by simp [objSet, objGet]
  | .ocons k2 w tl, k, v => by
    by_cases hk : k2 = k
    · simp [objSet, objGet, hk]
    · simp [objSet, objGet, hk, objGet_objSet_self tl k v]

theorem objGet_objSet_ne : (m : JsonObj) → (k k2 : List Char) → (v : Json) → k ≠ k2 →
    objGet (objSet m k v) k2 = objGet m k2
  | .onil, k, k2, v, h => by simp [objSet, objGet, h]
  | .ocons k3 w tl, k, k2, v, h => by
    by_cases hk : k3 = k
    · subst hk
      simp [objSet, objGet, h]
    · simp [objSet, objGet, hk, objGet_objSet_ne tl k k2 v h]

theorem pyMax_eq_max (a b : ℚ) : pyMax a b = max a b := by
  rw [pyMax]
  split_ifs with h
  · exact (max_eq_right h).symm
  · exact (max_eq_left (le_of_not_le h)).symm

theorem pyMin_eq_min (a b : ℚ) : pyMin a b = min a b := by
  rw [pyMin]
  split_ifs with h
  · exact (min_eq_right h).symm
  · exact (min_eq_left (le_of_not_le h)).symm

theorem le_pyMax_left (a b : ℚ) : a ≤ pyMax a b := by
  rw [pyMax_eq_max]
  exact le_max_left _ _

theorem pyMax_le {a b c : ℚ} (h1 : a ≤ c) (h2 : b ≤ c) : pyMax a b ≤ c := by
  rw [pyMax_eq_max]
  exact max_le h1 h2

theorem pyMin_le_left (a b : ℚ) : pyMin a b ≤ a := by
  rw [pyMin_eq_min]
  exact min_le_left _ _

theorem clamp100_eq (a : ℚ) : clamp100 a = max 0 (min 100 a) := by
  rw [clamp100, pyMax_eq_max, pyMin_eq_min]

theorem clamp95_eq (a : ℚ) : clamp95 a = max 0 (min 95 a) := by
  rw [clamp95, pyMax_eq_max, pyMin_eq_min]

theorem clamp100_mono {a b : ℚ} (h : a ≤ b) : clamp100 a ≤ clamp100 b := by
  rw [clamp100_eq, clamp100_eq]
  exact max_le_max le_rfl (min_le_min le_rfl h)

theorem adjustSection_spec (s s' : Json) (k : ℚ) (hk : sortKey s = some k)
    (h : adjustSection s = some s') :
    ∃ x y, secXY s' = some (x, y) ∧ 0 ≤ x ∧ x ≤ 199 / 2 ∧ y = clamp100 k ∧
      0 ≤ y ∧ y ≤ 100 := by
  cases s with
  | obj m =>
    simp only [adjustSection] at h
    cases htc : objGet m tcKey with
    | none =>
      rw [htc] at h
      simp only [Option.getD_none] at h
      simp only [sortKey, htc] at hk
      have hk0 : k = 0 := by
        simpa using hk.symm
      subst hk0
      have hout : ∀ w, secXY (.obj (objSet (objSet m tcKey
          (.arr (.acons (.num (pyMax 0 (pyMax 0 (pyMin 100 0) - (1 / 2 : ℚ))))
            (.acons (.num (pyMax 0 (pyMin 100 0))) .anil)))) precKey w))
          = some (pyMax 0 (pyMax 0 (pyMin 100 0) - (1 / 2 : ℚ)), pyMax 0 (pyMin 100 0)) := by
        intro w
        simp only [secXY]
        rw [objGet_objSet_ne _ _ _ _ (by decide), objGet_objSet_self]
      cases hconf : objGet m confKey with
      | none =>
        rw [hconf] at h
        simp only [Option.some_inj] at h
        subst h
        refine ⟨_, _, hout _, le_pyMax_left _ _, by norm_num [pyMax, pyMin],
          by norm_num [clamp100, pyMax, pyMin], le_pyMax_left _ _, by norm_num [pyMax, pyMin]⟩
      | some cv =>
        rw [hconf] at h
        cases cv with
        | num c =>
          simp only [Option.some_inj] at h
          subst h
          refine ⟨_, _, hout _, le_pyMax_left _ _, by norm_num [pyMax, pyMin],
            by norm_num [clamp100, pyMax, pyMin], le_pyMax_left _ _, by norm_num [pyMax, pyMin]⟩
        | bool b =>
          simp only [Option.some_inj] at h
          subst h
          refine ⟨_, _, hout _, le_pyMax_left _ _, by norm_num [pyMax, pyMin],
            by norm_num [clamp100, pyMax, pyMin], le_pyMax_left _ _, by norm_num [pyMax, pyMin]⟩
        | null => exact absurd h (by simp)
        | str s2 => exact absurd h (by simp)
        | arr l2 => exact absurd h (by simp)
        | obj o2 => exact absurd h (by simp)
    | some tv =>
      rw [htc] at h
      simp only [Option.getD_some] at h
      simp only [sortKey, htc] at hk
      cases tv with
      | arr xs =>
        cases xs with
        | anil => exact absurd h (by simp)
        | acons v0 xs1 =>
          cases xs1 with
          | anil =>
            cases v0 <;> simp_all [arrGet]
          | acons v1 rest =>
            cases v0 with
            | num x =>
              cases v1 with
              | num y =>
                simp only [arrGet, Option.some_inj] at hk
                subst hk
                have hx1 : pyMax 0 (pyMin 100 x) ≤ 100 := pyMax_le (by norm_num) (pyMin_le_left _ _)
                have hb1 : (0 : ℚ) ≤ pyMax 0 (pyMax 0 (pyMin 100 x) - (1 / 2 : ℚ)) :=
                  le_pyMax_left _ _
                have hb2 : pyMax 0 (pyMax 0 (pyMin 100 x) - (1 / 2 : ℚ)) ≤ 199 / 2 :=
                  pyMax_le (by norm_num) (by linarith)
                have hout : ∀ w, secXY (.obj (objSet (objSet m tcKey
                    (.arr (.acons (.num (pyMax 0 (pyMax 0 (pyMin 100 x) - (1 / 2 : ℚ))))
                      (.acons (.num (pyMax 0 (pyMin 100 y))) rest)))) precKey w))
                    = some (pyMax 0 (pyMax 0 (pyMin 100 x) - (1 / 2 : ℚ)), pyMax 0 (pyMin 100 y)) := by
                  intro w
                  simp only [secXY]
                  rw [objGet_objSet_ne _ _ _ _ (by decide), objGet_objSet_self]
                have hy1 : pyMax 0 (pyMin 100 y) = clamp100 y := rfl
                have hyb1 : (0 : ℚ) ≤ pyMax 0 (pyMin 100 y) := le_pyMax_left _ _
                have hyb2 : pyMax 0 (pyMin 100 y) ≤ 100 := pyMax_le (by norm_num) (pyMin_le_left _ _)
                cases hconf : objGet m confKey with
                | none =>
                  rw [hconf] at h
                  simp only [Option.some_inj] at h
                  subst h
                  exact ⟨_, _, hout _, hb1, hb2, hy1.symm ▸ rfl, hyb1, hyb2⟩
                | some cv =>
                  rw [hconf] at h
                  cases cv with
                  | num c =>
                    simp only [Option.some_inj] at h
                    subst h
                    exact ⟨_, _, hout _, hb1, hb2, rfl, hyb1, hyb2⟩
                  | bool b =>
                    simp only [Option.some_inj] at h
                    subst h
                    exact ⟨_, _, hout _, hb1, hb2, rfl, hyb1, hyb2⟩
                  | null => exact absurd h (by simp)
                  | str s2 => exact absurd h (by simp)
                  | arr l2 => exact absurd h (by simp)
                  | obj o2 => exact absurd h (by simp)
              | null => exact absurd h (by simp)
              | bool b => exact absurd h (by simp)
              | str s2 => exact absurd h (by simp)
              | arr l2 => exact absurd h (by simp)
              | obj o2 => exact absurd h (by simp)
            | null => exact absurd h (by simp)
            | bool b => exact absurd h (by simp)
            | str s2 => exact absurd h (by simp)
            | arr l2 => exact absurd h (by simp)
            | obj o2 => exact absurd h (by simp)
      | null => exact absurd h (by simp)
      | bool b => exact absurd h (by simp)
      | num q => exact absurd h (by simp)
      | str s2 => exact absurd h (by simp)
      | obj o2 => exact absurd h (by simp)
  | null => exact absurd h (by simp [adjustSection])
  | bool b => exact absurd h (by simp [adjustSection])
  | num q => exact absurd h (by simp [adjustSection])
  | str s2 => exact absurd h (by simp [adjustSection])
  | arr l2 => exact absurd h (by simp [adjustSection])

theorem forall2_mem_right {G : α → β → Prop} :
    ∀ {xs : List α} {ys : List β}, List.Forall₂ G xs ys → ∀ y ∈ ys, ∃ x ∈ xs, G x y := by
  intro xs ys h
  induction h with
  | nil => intro y hy; simp at hy
  | cons hxy htl ih =>
    intro y hy
    rcases List.mem_cons.mp hy with rfl | hy2
    · exact ⟨_, List.mem_cons_self _ _, hxy⟩
    · obtain ⟨x, hx, hg⟩ := ih y hy2
      exact ⟨x, List.mem_cons_of_mem _ hx, hg⟩

theorem forall2_and_left {G : α → β → Prop} {P : α → Prop} :
    ∀ {xs : List α} {ys : List β}, List.Forall₂ G xs ys → (∀ x ∈ xs, P x) →
      List.Forall₂ (fun x y => G x y ∧ P x) xs ys := by
  intro xs ys h
  induction h with
  | nil => intro _; exact List.Forall₂.nil
  | cons hxy htl ih =>
    intro hp
    exact List.Forall₂.cons ⟨hxy, hp _ (List.mem_cons_self _ _)⟩
      (ih fun x hx => hp x (List.mem_cons_of_mem _ hx))

theorem forall2_map_left {G : α → β → Prop} {f : γ → α} :
    ∀ {xs : List γ} {ys : List β}, List.Forall₂ G (xs.map f) ys →
      List.Forall₂ (fun x y => G (f x) y) xs ys := by
  intro xs
  induction xs with
  | nil =>
    intro ys h
    cases h
    exact List.Forall₂.nil
  | cons x xs ih =>
    intro ys h
    rw [List.map_cons] at h
    cases h with
    | cons hxy htl => exact List.Forall₂.cons hxy (ih htl)

theorem chain'_transfer {R : α → α → Prop} {S : β → β → Prop} {G : α → β → Prop} :
    ∀ {ps : List α} {ys : List β}, List.Forall₂ G ps ys → List.Chain' R ps →
      (∀ p1 p2 y1 y2, R p1 p2 → G p1 y1 → G p2 y2 → S y1 y2) → List.Chain' S ys := by
  intro ps ys hf
  induction hf with
  | nil => intro _ _; exact List.chain'_nil
  | cons hxy htl ih =>
    intro hc himp
    cases htl with
    | nil => exact List.chain'_singleton _
    | cons hx2y2 htl2 =>
      rw [List.chain'_cons]
      refine ⟨himp _ _ _ _ (List.chain'_cons.mp hc).1 hxy hx2y2, ?_⟩
      exact ih (List.chain'_cons.mp hc).2 himp

theorem sortSections_spec (l ls : List Json) (h : sortSections l = some ls) :
    ∃ ps, traverseKeys l = some ps ∧ ls = (insertionSortPairs ps).map Prod.snd := by
  simp only [sortSections] at h
  cases hk : traverseKeys l with
  | none => rw [hk] at h; exact absurd h (by simp)
  | some ps =>
    rw [hk] at h
    simp only [Option.some_inj] at h
    exact ⟨ps, rfl, h.symm⟩

theorem processSections_spec (l l' : List Json) (h : processSections l = some l') :
    (∀ s' ∈ l', ∃ x y, secXY s' = some (x, y) ∧ 0 ≤ x ∧ x ≤ 199 / 2 ∧ 0 ≤ y ∧ y ≤ 100) ∧
    List.Chain' (fun a b => ∃ ya yb, secY a = some ya ∧ secY b = some yb ∧ ya ≤ yb) l' := by
  simp only [processSections] at h
  cases hs : sortSections l with
  | none => rw [hs] at h; exact absurd h (by simp)
  | some ls =>
    rw [hs] at h
    obtain ⟨ps, hkeys, hls⟩ := sortSections_spec l ls hs
    have hkprop : ∀ p ∈ insertionSortPairs ps, sortKey p.2 = some p.1 :=
      fun p hp => (traverseKeys_spec l ps hkeys).2 p ((insertionSortPairs_perm ps).subset hp)
    have hf : List.Forall₂ (fun s s' => adjustSection s = some s') ls l' :=
      traverseOption_forall2 h
    rw [hls] at hf
    have hf2 := forall2_and_left (forall2_map_left hf) hkprop
    constructor
    · intro s' hs'
      obtain ⟨p, hp, hg⟩ := forall2_mem_right hf2 s' hs'
      cases hsk : sortKey p.2 with
      | none => rw [hsk] at hg; exact absurd hg.2 (by simp)
      | some k =>
        obtain ⟨x, y, hxy, hx0, hx1, -, hy0, hy1⟩ := adjustSection_spec p.2 s' k hsk hg.1
        exact ⟨x, y, hxy, hx0, hx1, hy0, hy1⟩
    · refine chain'_transfer hf2 (insertionSortPairs_sorted ps) ?_
      intro p1 p2 y1 y2 hr hg1 hg2
      obtain ⟨x1, yy1, hxy1, -, -, hcy1, -, -⟩ := adjustSection_spec p1.2 y1 p1.1 hg1.2 hg1.1
      obtain ⟨x2, yy2, hxy2, -, -, hcy2, -, -⟩ := adjustSection_spec p2.2 y2 p2.1 hg2.2 hg2.1
      refine ⟨yy1, yy2, ?_, ?_, ?_⟩
      · simp [secY, hxy1]
      · simp [secY, hxy2]
      · rw [hcy1, hcy2]
        exact clamp100_mono hr

theorem filter_map_snd (pairs : List (ℚ × Json)) (k : ℚ)
    (hall : ∀ p ∈ pairs, sortKey p.2 = some p.1) :
    (pairs.map Prod.snd).filter (fun s => decide (sortKey s = some k))
      = (pairs.filter (fun p => decide (p.1 = k))).map Prod.snd := by
  induction pairs with
  | nil => rfl
  | cons p ps ih =>
    have hp := hall p (List.mem_cons_self _ _)
    have heq : (decide (sortKey p.2 = some k)) = (decide (p.1 = k)) := by
      rw [hp]
      by_cases hk : p.1 = k
      · simp [hk]
      · simp [hk]
    simp only [List.map_cons, List.filter_cons, heq]
    cases hd : decide (p.1 = k) with
    | false => simp [ih (fun q hq => hall q (List.mem_cons_of_mem _ hq))]
    | true => simp [ih (fun q hq => hall q (List.mem_cons_of_mem _ hq))]

theorem sortSections_stable (l ls : List Json) (k : ℚ) (h : sortSections l = some ls) :
    ls.filter (fun s => decide (sortKey s = some k))
      = l.filter (fun s => decide (sortKey s = some k)) := by
  obtain ⟨ps, hkeys, hls⟩ := sortSections_spec l ls h
  obtain ⟨hsnd, hkey⟩ := traverseKeys_spec l ps hkeys
  have hksort : ∀ p ∈ insertionSortPairs ps, sortKey p.2 = some p.1 :=
    fun p hp => hkey p ((insertionSortPairs_perm ps).subset hp)
  rw [hls, filter_map_snd _ k hksort, insertionSortPairs_stable, ← filter_map_snd _ k hkey, hsnd]

theorem sortSections_idem (l ls : List Json) (h : sortSections l = some ls) :
    sortSections ls = some ls := by
  obtain ⟨ps, hkeys, hls⟩ := sortSections_spec l ls h
  have hkey := (traverseKeys_spec l ps hkeys).2
  have hksort : ∀ p ∈ insertionSortPairs ps, sortKey p.2 = some p.1 :=
    fun p hp => hkey p ((insertionSortPairs_perm ps).subset hp)
  have htk : traverseKeys ls = some (insertionSortPairs ps) := by
    rw [hls]
    exact traverseKeys_of_spec _ hksort
  simp only [sortSections, htk, insertionSortPairs_idem]
  rw [hls]

theorem clamp95_bounds (t : ℚ) : 0 ≤ clamp95 t ∧ clamp95 t ≤ 95 := by
  rw [clamp95_eq]
  exact ⟨le_max_left _ _, max_le (by norm_num) (min_le_left _ _)⟩

theorem bboxAnchor_bounds (m : JsonObj) (p : ℚ × ℚ) (h : bboxAnchor m = some p) :
    0 ≤ p.1 ∧ p.1 ≤ 95 ∧ 0 ≤ p.2 ∧ p.2 ≤ 95 := by
  simp only [bboxAnchor] at h
  split at h
  · split at h
    · simp only [Option.some_inj] at h
      subst h
      exact ⟨(clamp95_bounds _).1, (clamp95_bounds _).2, (clamp95_bounds _).1,
        (clamp95_bounds _).2⟩
    · exact absurd h (by simp)
  · exact absurd h (by simp)

theorem anchorObj_bounds (m : JsonObj) (p : ℚ × ℚ) (h : anchorObj m = some p) :
    0 ≤ p.1 ∧ p.1 ≤ 95 ∧ 0 ≤ p.2 ∧ p.2 ≤ 95 := by
  simp only [anchorObj] at h
  split at h
  · split at h
    · split at h
      · split at h
        · simp only [Option.some_inj] at h
          subst h
          exact ⟨(clamp95_bounds _).1, (clamp95_bounds _).2, (clamp95_bounds _).1,
            (clamp95_bounds _).2⟩
        · exact absurd h (by simp)
      · exact absurd h (by simp)
    · exact bboxAnchor_bounds m p h
  · exact bboxAnchor_bounds m p h

/-- C4: for every SectionReview rendered by the Report Renderer, the marker
anchor is `(coordinates[0] + 3.0, coordinates[1])` when the section has a
present, truthy (non-empty) `coordinates` field, and `(bbox[2], bbox[1])` —
the top-right corner of the bounding box — otherwise; in either case both
components of the final anchor are clamped into `[0.0, 95.0]`. -/
theorem c4_renderer_anchor (m : JsonObj) :
    (∀ c x y rest, objGet m coordsKey = some c → truthy c = true →
        c = .arr (.acons (.num x) (.acons (.num y) rest)) →
        anchorOf (.obj m) = some (clamp95 (x + 3), clamp95 y)) ∧
    (∀ bl b1 b2, (objGet m coordsKey = none ∨
          ∃ c, objGet m coordsKey = some c ∧ truthy c = false) →
        objGet m bboxKey = some (.arr bl) →
        arrGet bl 1 = some (.num b1) → arrGet bl 2 = some (.num b2) →
        anchorOf (.obj m) = some (clamp95 b2, clamp95 b1)) ∧
    (∀ s p, anchorOf s = some p → 0 ≤ p.1 ∧ p.1 ≤ 95 ∧ 0 ≤ p.2 ∧ p.2 ≤ 95) := by
  refine ⟨?_, ?_, ?_⟩
  · intro c x y rest hc htr hshape
    subst hshape
    simp [anchorOf, anchorObj, hc, htr, arrGet]
  · intro bl b1 b2 hco hbb h1 h2
    have hbbox : bboxAnchor m = some (clamp95 b2, clamp95 b1) := by
      simp [bboxAnchor, hbb, h1, h2]
    rcases hco with hnone | ⟨c, hc, hfal⟩
    · simp [anchorOf, anchorObj, hnone, hbbox]
    · simp [anchorOf, anchorObj, hc, hfal, hbbox]
  · intro s p h
    cases s with
    | obj m2 => exact anchorObj_bounds m2 p h
    | null => exact absurd h (by simp [anchorOf])
    | bool b => exact absurd h (by simp [anchorOf])
    | num q => exact absurd h (by simp [anchorOf])
    | str s2 => exact absurd h (by simp [anchorOf])
    | arr l2 => exact absurd h (by simp [anchorOf])

/-- C4 witness: a section with coordinates `[10, 20]` anchors at
`(13, 20)`, one with only bbox `[0, 0, 40, 5]` anchors at `(40, 5)`, and
both anchors lie inside `[0, 95]`. -/
theorem c4_renderer_anchor_witness :
    anchorOf (.obj (.ocons coordsKey
        (.arr (.acons (.num 10) (.acons (.num 20) .anil))) .onil))
      = some (clamp95 (10 + 3), clamp95 20) ∧
    anchorOf (.obj (.ocons bboxKey
        (.arr (.acons (.num 0) (.acons (.num 5) (.acons (.num 40) (.acons (.num 7) .anil))))) .onil))
      = some (clamp95 40, clamp95 5) ∧
    (0 : ℚ) ≤ 13 ∧ (13 : ℚ) ≤ 95 := by
  refine ⟨?_, ?_, by norm_num, by norm_num⟩
  · exact (c4_renderer_anchor _).1
      (.arr (.acons (.num 10) (.acons (.num 20) .anil))) 10 20 .anil
      (by decide) (by decide) (by decide)
  · exact (c4_renderer_anchor _).2.1
      (.acons (.num 0) (.acons (.num 5) (.acons (.num 40) (.acons (.num 7) .anil)))) 5 40
      (.inl (by decide)) (by decide) (by decide) (by decide)

/-- C10: a SectionReview with neither a truthy `coordinates` field nor a
`bbox` field still yields a marker, via the default bounding box
`[0, 0, 10, 10]`, so the clamped anchor is `(10.0, 0.0)`. -/
theorem c10_default_bbox_marker (m : JsonObj)
    (hco : objGet m coordsKey = none ∨
      ∃ c, objGet m coordsKey = some c ∧ truthy c = false)
    (hbb : objGet m bboxKey = none) :
    anchorOf (.obj m) = some (10, 0) ∧
    markerOf (.obj m) = some ⟨10, 0, (objGet m critKey).getD (.str yellowStr)⟩ := by
  have hbbox : bboxAnchor m = some (10, 0) := by
    simp only [bboxAnchor, hbb, Option.getD_none, defaultBbox, arrGet]
    norm_num [clamp95, pyMax, pyMin]
  have hanchor : anchorObj m = some (10, 0) := by
    rcases hco with hnone | ⟨c, hc, hfal⟩
    · simp [anchorObj, hnone, hbbox]
    · simp [anchorObj, hc, hfal, hbbox]
  refine ⟨by simp [anchorOf, hanchor], ?_⟩
  simp [markerOf, hanchor]

/-- C10 witness: the empty section object gets the default marker at
`(10, 0)` with the default yellow criticality. -/
theorem c10_default_bbox_marker_witness :
    anchorOf (.obj .onil) = some (10, 0) ∧
    markerOf (.obj .onil) = some ⟨10, 0, .str yellowStr⟩ := by
  have h := c10_default_bbox_marker .onil (.inl (by decide)) (by decide)
  exact ⟨h.1, h.2⟩

/-- C6: the Report Renderer's overall-score banner class is the three-tier
function of `overall_score`: `score-excellent` iff the score is at least 85,
`score-good` iff it is in [60, 85), `score-poor` iff it is below 60; a score
of 92 renders the excellent class; and a rendered document's class field is
exactly this function of the analysis's `overall_score`. -/
theorem c6_score_class (q : ℚ) (m : JsonObj) (doc : RenderDoc) :
    (scoreClass q = "score-excellent".data ↔ 85 ≤ q) ∧
    (scoreClass q = "score-good".data ↔ 60 ≤ q ∧ q < 85) ∧
    (scoreClass q = "score-poor".data ↔ q < 60) ∧
    scoreClass 92 = "score-excellent".data ∧
    (create_interactive_html (.obj m) = some doc → objGet m scoreKey = some (.num q) →
      doc.scoreClassD = scoreClass q) := by
  refine ⟨?_, ?_, ?_, ?_, ?_⟩
  · by_cases h85 : 85 ≤ q
    · simp [scoreClass, h85]
    · by_cases h60 : 60 ≤ q <;> simp [scoreClass, h85, h60]
  · by_cases h85 : 85 ≤ q
    · simp only [scoreClass, if_pos h85]
      constructor
      · intro h
        exact absurd h (by decide)
      · rintro ⟨-, hlt⟩
        exact absurd h85 (not_le.mpr hlt)
    · by_cases h60 : 60 ≤ q
      · simp [scoreClass, h85, h60, not_le.mp h85]
      · simp only [scoreClass, if_neg h85, if_neg h60]
        constructor
        · intro h
          exact absurd h (by decide)
        · rintro ⟨hge, -⟩
          exact absurd hge h60
  · by_cases h85 : 85 ≤ q
    · simp only [scoreClass, if_pos h85]
      constructor
      · intro h
        exact absurd h (by decide)
      · intro hlt
        linarith
    · by_cases h60 : 60 ≤ q
      · simp only [scoreClass, if_neg h85, if_pos h60]
        constructor
        · intro h
          exact absurd h (by decide)
        · intro hlt
          linarith
      · simp [scoreClass, h85, h60, not_le.mp h60]
  · norm_num [scoreClass]
  · intro h hscore
    simp only [create_interactive_html, hscore, Option.getD_some] at h
    split at h
    · split at h
      · split at h
        · split at h
          · simp only [Option.some_inj] at h
            subst h
            rfl
          · exact absurd h (by simp)
        · exact absurd h (by simp)
      · exact absurd h (by simp)
    · exact absurd h (by simp)

/-- C6 witness: an analysis with overall score 92 renders the excellent
class, and the tier facts hold at 92. -/
theorem c6_score_class_witness :
    (RenderDoc.mk "score-excellent".data 92 (.str defaultFeedback) 0 0 0 0 []
        none none none none).scoreClassD = scoreClass 92 ∧
    (85 : ℚ) ≤ 92 ∧ scoreClass 92 = "score-excellent".data := by
  refine ⟨?_, by norm_num, (c6_score_class 92 .onil
    (RenderDoc.mk "score-excellent".data 92 (.str defaultFeedback) 0 0 0 0 []
      none none none none)).2.2.2.1⟩
  exact (c6_score_class 92 (.ocons scoreKey (.num 92) .onil)
    (RenderDoc.mk "score-excellent".data 92 (.str defaultFeedback) 0 0 0 0 []
      none none none none)).2.2.2.2 (by decide) (by decide)

/-- Concrete evaluation of the per-section pass on the sample section. -/
theorem adjustSection_sample : adjustSection secSample = some secSampleOut := by
  simp only [secSample, secSampleOut, adjustSection]
  rw [show objGet (.ocons tcKey (.arr (.acons (.num 50) (.acons (.num 70) .anil)))
      (.ocons confKey (.num 90) .onil)) tcKey
    = some (.arr (.acons (.num 50) (.acons (.num 70) .anil))) from by decide]
  rw [show objGet (.ocons tcKey (.arr (.acons (.num 50) (.acons (.num 70) .anil)))
      (.ocons confKey (.num 90) .onil)) confKey = some (.num 90) from by decide]
  simp only [Option.getD_some]
  rw [show pyMax 0 (pyMax 0 (pyMin 100 (50 : ℚ)) - (1 / 2 : ℚ)) = 99 / 2 from by
    norm_num [pyMax, pyMin]]
  rw [show pyMax 0 (pyMin 100 (70 : ℚ)) = 70 from by norm_num [pyMax, pyMin]]
  rw [if_pos (by norm_num : (85 : ℚ) ≤ 90)]

/-- C7: every section processed by the Coordinate Extractor's per-section
pass gains a `coordinate_precision` field that is `"high"` exactly when the
section carries a numeric `confidence` of at least 85, and `"medium"` in
every other processed case (missing confidence reads as 0); no third tier
exists. -/
theorem c7_coordinate_precision (m : JsonObj) (s' : Json)
    (h : adjustSection (.obj m) = some s') :
    ∃ m2, s' = .obj m2 ∧
      ((objGet m2 precKey = some (.str highStr)) ↔
        (∃ c, objGet m confKey = some (.num c) ∧ 85 ≤ c)) ∧
      (objGet m2 precKey = some (.str highStr) ∨
        objGet m2 precKey = some (.str mediumStr)) := by
  simp only [adjustSection] at h
  split at h
  · -- title_coordinates shape matched
    next x y restc heq =>
      cases hconf : objGet m confKey with
      | none =>
        rw [hconf] at h
        simp only [Option.some_inj] at h
        subst h
        refine ⟨_, rfl, ?_, .inr (objGet_objSet_self _ _ _)⟩
        rw [objGet_objSet_self]
        constructor
        · intro hcontra
          simp only [Option.some_inj] at hcontra
          exact absurd hcontra (by decide)
        · rintro ⟨c, hc, -⟩
          exact absurd hc (by simp)
      | some cv =>
        rw [hconf] at h
        cases cv with
        | num c =>
          simp only [Option.some_inj] at h
          subst h
          by_cases h85 : 85 ≤ c
          · refine ⟨_, rfl, ?_, ?_⟩
            · rw [objGet_objSet_self]
              simp only [if_pos h85]
              exact ⟨fun _ => ⟨c, rfl, h85⟩, fun _ => trivial⟩
            · rw [objGet_objSet_self]
              simp [if_pos h85]
          · refine ⟨_, rfl, ?_, ?_⟩
            · rw [objGet_objSet_self]
              simp only [if_neg h85]
              constructor
              · intro hcontra
                simp only [Option.some_inj] at hcontra
                exact absurd hcontra (by decide)
              · rintro ⟨c2, hc2, h852⟩
                simp only [Option.some_inj, Json.num.injEq] at hc2
                exact absurd (hc2 ▸ h852) h85
            · rw [objGet_objSet_self]
              simp [if_neg h85]
        | bool b =>
          simp only [Option.some_inj] at h
          subst h
          refine ⟨_, rfl, ?_, .inr (objGet_objSet_self _ _ _)⟩
          rw [objGet_objSet_self]
          constructor
          · intro hcontra
            simp only [Option.some_inj] at hcontra
            exact absurd hcontra (by decide)
          · rintro ⟨c, hc, -⟩
            exact absurd hc (by simp)
        | null => exact absurd h (by simp)
        | str s2 => exact absurd h (by simp)
        | arr l2 => exact absurd h (by simp)
        | obj o2 => exact absurd h (by simp)
  · exact absurd h (by simp)

/-- C7 witness: the sample section with confidence 90 is annotated
`"high"`, and no value other than `"high"` or `"medium"` can appear. -/
theorem c7_coordinate_precision_witness :
    ∃ m2, secSampleOut = .obj m2 ∧
      ((objGet m2 precKey = some (.str highStr)) ↔
        (∃ c, objGet (.ocons tcKey (.arr (.acons (.num 50) (.acons (.num 70) .anil)))
          (.ocons confKey (.num 90) .onil)) confKey = some (.num c) ∧ 85 ≤ c)) ∧
      (objGet m2 precKey = some (.str highStr) ∨
        objGet m2 precKey = some (.str mediumStr)) :=
  c7_coordinate_precision _ _ adjustSection_sample

/-- C1 counterexample: on a response with no brace at all — which the claim
says must fail with a `MalformedResponse` error delivered to the caller and
never a silent empty result — `identify_section_coordinates` returns `None`:
the `JSONDecodeError` is printed and swallowed (lines 144-151), exactly the
silent `None` the claim rules out. -/
theorem c1_counterexample :
    identify_section_coordinates (some "hello".data) = none := by decide

/-- C1 (amended): when the extracted substring fails to parse, the
coordinate step catches the error (printing it and the raw text to stdout)
and returns `None` to the caller; an upstream call failure also yields
`None`; this `None` is still distinguishable from "no sections detected",
which parses and is returned as a non-`None` payload with an empty
`detected_sections` list. -/
theorem c1_extraction_failure_returns_none :
    (∀ t, jsonLoads (extract_json_text t) = none →
      identify_section_coordinates (some t) = none) ∧
    identify_section_coordinates none = none ∧
    identify_section_coordinates
        (some (serVal (Json.obj (.ocons dsKey (.arr .anil) .onil))))
      = some (Json.obj (.ocons dsKey (.arr .anil) .onil)) := by
  refine ⟨?_, rfl, by decide⟩
  intro t h
  simp [identify_section_coordinates, h]

/-- C1 witness: the failure conjunct applied to a concrete brace-free
response. -/
theorem c1_extraction_failure_returns_none_witness :
    identify_section_coordinates (some "nothing here".data) = none :=
  c1_extraction_failure_returns_none.1 _ (by decide)

/-- C2 counterexample: the claim quantifies over every response text that
embeds the serialization of `O` in raw prose with text before and after it;
with `O` the object whose serialization has one member `a` set to 1, the
prose `a{b ... c` makes the first `{` belong to the prose, the extracted
substring is not JSON, and extraction yields `None` rather than `O`. -/
theorem c2_counterexample :
    jsonLoads (extract_json_text
      (('a' :: lbraceChar :: 'b' :: ' ' :: []) ++
        (serVal (Json.obj (.ocons ('a' :: []) (.num 1) .onil)) ++ (' ' :: 'c' :: []))))
      = none := by decide

/-- C2 (amended): extraction round-trips across all three embeddings — a
fenced block tagged json, raw prose before and after, and sole content —
for every well-formed object of the modelled fragment, provided the
serialization contains no backtick and the prose contains no backtick and
no brace (the counterexample shows prose braces break the first-brace to
last-brace rule; a backtick fence in the prose or payload similarly
misleads the fence branch). -/
theorem c2_extraction_roundtrip (o : JsonObj) (pre post : List Char)
    (hwf : wfJson (Json.obj o) = true)
    (hser : backtickChar ∉ serVal (Json.obj o))
    (hpre : backtickChar ∉ pre) (hpost : backtickChar ∉ post)
    (hpre2 : lbraceChar ∉ pre) (hpostb : rbraceChar ∉ post) :
    jsonLoads (extract_json_text
        (pre ++ (fenceTag ++ ((newlineChar :: (serVal (Json.obj o) ++ [newlineChar]))
          ++ (fence3 ++ post)))))
      = some (Json.obj o) ∧
    jsonLoads (extract_json_text (pre ++ (serVal (Json.obj o) ++ post)))
      = some (Json.obj o) ∧
    jsonLoads (extract_json_text (serVal (Json.obj o))) = some (Json.obj o) := by
  have hrt := jsonLoads_serVal _ hwf
  refine ⟨?_, ?_, ?_⟩
  · rw [extract_fenced (Json.obj o) pre post hpre hser]
    exact hrt
  · have hmem : backtickChar ∉ pre ++ (serVal (Json.obj o) ++ post) := by
      simp only [List.mem_append]
      rintro (h | h | h)
      · exact hpre h
      · exact hser h
      · exact hpost h
    rw [extract_prose o pre post (findSub_absent _ _ hmem) hpre2 hpostb]
    exact hrt
  · have hmem : backtickChar ∉ ([] : List Char) ++ (serVal (Json.obj o) ++ []) := by
      simpa using hser
    have h := extract_prose o [] [] (findSub_absent _ _ hmem) (by simp) (by simp)
    simp only [List.nil_append, List.append_nil] at h
    rw [h]
    exact hrt

/-- C2 witness: the sole-content embedding of the one-member object parses
back to it. -/
theorem c2_extraction_roundtrip_witness :
    jsonLoads (extract_json_text (serVal (Json.obj (.ocons ('a' :: []) (.num 1) .onil))))
      = some (Json.obj (.ocons ('a' :: []) (.num 1) .onil)) :=
  (c2_extraction_roundtrip (.ocons ('a' :: []) (.num 1) .onil) [] []
    (by decide) (by decide) (by decide) (by decide) (by decide) (by decide)).2.2

/-- C3: for every successfully parsed coordinate payload with a non-empty
`detected_sections` list, the post-processing (sort by the y-component,
clamp both components into [0, 100], nudge x left by 0.5 with an explicit
guard at 0) yields a payload in which every section's stored x lies in
[0, 99.5], every stored y lies in [0, 100], and the list is ordered
top-to-bottom by the stored y. -/
theorem c3_postprocess_clamps_and_sorts (m : JsonObj) (l : JsonArr) (c' : Json)
    (hds : objGet m dsKey = some (.arr l)) (hne : l ≠ .anil)
    (h : postProcessJson (.obj m) = some c') :
    ∃ m2 l2, c' = .obj m2 ∧ objGet m2 dsKey = some (.arr (listToJarr l2)) ∧
      processSections (jarrToList l) = some l2 ∧
      (∀ s' ∈ l2, ∃ x y, secXY s' = some (x, y) ∧
        0 ≤ x ∧ x ≤ 199 / 2 ∧ 0 ≤ y ∧ y ≤ 100) ∧
      List.Chain' (fun a b => ∃ ya yb, secY a = some ya ∧ secY b = some yb ∧ ya ≤ yb) l2 := by
  have htr : truthy (.obj m) = true := by
    cases m with
    | onil => simp [objGet] at hds
    | ocons k v tl => rfl
  have htrds : truthy (.arr l) = true := by
    cases l with
    | anil => exact absurd rfl hne
    | acons v tl => rfl
  simp only [postProcessJson, htr, if_true, hds, htrds] at h
  cases hp : processSections (jarrToList l) with
  | none => rw [hp] at h; exact absurd h (by simp)
  | some l2 =>
    rw [hp] at h
    simp only [Option.some_inj] at h
    subst h
    obtain ⟨hb, hc⟩ := processSections_spec _ _ hp
    exact ⟨_, l2, rfl, objGet_objSet_self _ _ _, rfl, hb, hc⟩

/-- C3 witness: the sample one-section payload post-processes to the
clamped, nudged, annotated section. -/
theorem c3_postprocess_clamps_and_sorts_witness :
    ∃ m2 l2,
      (Json.obj (objSet (.ocons dsKey (.arr (.acons secSample .anil)) .onil) dsKey
        (.arr (listToJarr [secSampleOut])))) = .obj m2 ∧
      objGet m2 dsKey = some (.arr (listToJarr l2)) ∧
      processSections (jarrToList (.acons secSample .anil)) = some l2 ∧
      (∀ s' ∈ l2, ∃ x y, secXY s' = some (x, y) ∧
        0 ≤ x ∧ x ≤ 199 / 2 ∧ 0 ≤ y ∧ y ≤ 100) ∧
      List.Chain' (fun a b => ∃ ya yb, secY a = some ya ∧ secY b = some yb ∧ ya ≤ yb) l2 := by
  have hps : processSections (jarrToList (JsonArr.acons secSample .anil)) = some [secSampleOut] := by
    simp only [jarrToList, processSections, sortSections]
    rw [show traverseKeys [secSample] = some [((70 : ℚ), secSample)] from by decide]
    simp only [insertionSortPairs, insertPair, List.map_cons, List.map_nil]
    simp only [traverseOption, adjustSection_sample]
  have hpp : postProcessJson (.obj (.ocons dsKey (.arr (.acons secSample .anil)) .onil))
      = some (.obj (objSet (.ocons dsKey (.arr (.acons secSample .anil)) .onil) dsKey
        (.arr (listToJarr [secSampleOut])))) := by
    simp only [postProcessJson, truthy]
    rw [show objGet (.ocons dsKey (.arr (.acons secSample .anil)) .onil) dsKey
      = some (.arr (.acons secSample .anil)) from by decide]
    simp only [truthy, if_true, hps]
  exact c3_postprocess_clamps_and_sorts _ _ _ (by decide) (by decide) hpp

/-- C9: the Coordinate Extractor's sort of detected sections by the
y-component of `title_coordinates` is stable — for any key value, the
subsequence of sections with that key is unchanged — and idempotent:
sorting an already-sorted list returns it unchanged. -/
theorem c9_sort_stable_and_idempotent (l ls : List Json) (k : ℚ)
    (h : sortSections l = some ls) :
    ls.filter (fun s => decide (sortKey s = some k))
      = l.filter (fun s => decide (sortKey s = some k)) ∧
    sortSections ls = some ls :=
  ⟨sortSections_stable l ls k h, sortSections_idem l ls h⟩

/-- C9 witness: two sections with the same y keep their original relative
order, and resorting the result is the identity. -/
theorem c9_sort_stable_and_idempotent_witness :
    ([Json.obj (.ocons tcKey (.arr (.acons (.num 5) (.acons (.num 30) .anil))) .onil),
      Json.obj (.ocons tcKey (.arr (.acons (.num 8) (.acons (.num 30) .anil))) .onil)].filter
        (fun s => decide (sortKey s = some 30)))
      = ([Json.obj (.ocons tcKey (.arr (.acons (.num 5) (.acons (.num 30) .anil))) .onil),
          Json.obj (.ocons tcKey (.arr (.acons (.num 8) (.acons (.num 30) .anil))) .onil)].filter
            (fun s => decide (sortKey s = some 30))) ∧
    sortSections
        [Json.obj (.ocons tcKey (.arr (.acons (.num 5) (.acons (.num 30) .anil))) .onil),
         Json.obj (.ocons tcKey (.arr (.acons (.num 8) (.acons (.num 30) .anil))) .onil)]
      = some
        [Json.obj (.ocons tcKey (.arr (.acons (.num 5) (.acons (.num 30) .anil))) .onil),
         Json.obj (.ocons tcKey (.arr (.acons (.num 8) (.acons (.num 30) .anil))) .onil)] :=
  c9_sort_stable_and_idempotent _ _ 30 (by decide)

/-- C5: a failed (or falsy, lines 975-985) Coordinate Extractor step does
not abort the pipeline — the run proceeds exactly as with no coordinate
context, and the Profile Scorer and the Report Renderer still execute; a
failed Profile Scorer step is fatal — the pipeline returns `None` and no
document is rendered — as is a falsy parsed analysis (line 991,
`if not analysis:`); and any successful run's document was rendered from a
successfully parsed, truthy ProfileAnalysis, with the normalized
coordinate payload in the returned artifacts. -/
theorem c5_pipeline_error_policy (coordResp analysisResp : Option (List Char)) :
    (normalizeCoords (identify_section_coordinates coordResp) = none →
      analyze_and_create_report coordResp analysisResp
        = (match analyze_profile analysisResp none with
           | none => none
           | some analysis =>
             if truthy analysis then
               match create_interactive_html analysis with
               | some doc => some ⟨none, analysis, doc⟩
               | none => none
             else none)) ∧
    (analyze_profile analysisResp (normalizeCoords (identify_section_coordinates coordResp))
        = none →
      analyze_and_create_report coordResp analysisResp = none) ∧
    (∀ analysis,
      analyze_profile analysisResp (normalizeCoords (identify_section_coordinates coordResp))
          = some analysis →
      truthy analysis = false →
      analyze_and_create_report coordResp analysisResp = none) ∧
    (∀ r, analyze_and_create_report coordResp analysisResp = some r →
      r.sectionCoordinates = normalizeCoords (identify_section_coordinates coordResp) ∧
      analyze_profile analysisResp r.sectionCoordinates = some r.analysis ∧
      truthy r.analysis = true ∧
      create_interactive_html r.analysis = some r.document) := by
  refine ⟨?_, ?_, ?_, ?_⟩
  · intro h
    simp only [analyze_and_create_report, h]
  · intro h
    simp only [analyze_and_create_report, h]
  · intro analysis ha htr
    simp only [analyze_and_create_report, ha, htr]
    simp
  · intro r h
    simp only [analyze_and_create_report] at h
    cases ha : analyze_profile analysisResp
        (normalizeCoords (identify_section_coordinates coordResp)) with
    | none => rw [ha] at h; exact absurd h (by simp)
    | some analysis =>
      rw [ha] at h
      simp only [] at h
      cases htr : truthy analysis with
      | false =>
        rw [htr] at h
        simp at h
      | true =>
        rw [htr] at h
        simp only [if_true] at h
        cases hd : create_interactive_html analysis with
        | none => rw [hd] at h; exact absurd h (by simp)
        | some doc =>
          rw [hd] at h
          simp only [Option.some_inj] at h
          subst h
          exact ⟨rfl, ha, htr, hd⟩

/-- C5 witness: a garbage coordinate response does not stop the run — it
proceeds with no coordinate context against a well-formed analysis
response — while a garbage analysis response returns `None`, as does one
parsing to the falsy empty object. -/
theorem c5_pipeline_error_policy_witness :
    analyze_and_create_report (some "garbage".data)
        (some (serVal (Json.obj (.ocons scoreKey (.num 0) .onil))))
      = (match analyze_profile (some (serVal (Json.obj (.ocons scoreKey (.num 0) .onil)))) none with
         | none => none
         | some analysis =>
           if truthy analysis then
             match create_interactive_html analysis with
             | some doc => some ⟨none, analysis, doc⟩
             | none => none
           else none) ∧
    analyze_and_create_report (some "garbage".data) (some "oops".data) = none ∧
    analyze_and_create_report (some "garbage".data) (some (serVal (Json.obj .onil))) = none :=
  ⟨(c5_pipeline_error_policy _ _).1 (by decide),
   (c5_pipeline_error_policy _ _).2.1 (by decide),
   (c5_pipeline_error_policy _ _).2.2.1 (Json.obj .onil) (by decide) (by decide)⟩

/-- C8: a ProfileAnalysis with an empty (or absent) sections list still
renders to a complete document with zero markers (hence zero detail
panels, one being emitted per marker) and a statistics strip of all zero
counts; rendering an otherwise-minimal analysis succeeds outright. -/
theorem c8_empty_sections_document (m : JsonObj) (doc : RenderDoc)
    (h : create_interactive_html (.obj m) = some doc)
    (hs : objGet m sectionsKey = none ∨ objGet m sectionsKey = some (.arr .anil)) :
    (doc.markers = [] ∧ doc.redCount = 0 ∧ doc.yellowCount = 0 ∧ doc.greenCount = 0 ∧
      doc.totalSections = 0) ∧
    create_interactive_html (.obj (.ocons scoreKey (.num 0) .onil))
      = some ⟨"score-poor".data, 0, .str defaultFeedback, 0, 0, 0, 0, [],
          none, none, none, none⟩ := by
  refine ⟨?_, by decide⟩
  have hsl : (objGet m sectionsKey).getD (.arr .anil) = .arr .anil := by
    rcases hs with h1 | h1 <;> rw [h1] <;> rfl
  simp only [create_interactive_html, hsl] at h
  split at h
  · split at h
    · split at h
      · split at h
        · simp only [Option.some_inj] at h
          subst h
          refine ⟨?_, ?_, ?_, ?_, ?_⟩ <;>
            simp_all [jarrToList, critsOf, traverseOption, countCrit, List.filter]
        · exact absurd h (by simp)
      · exact absurd h (by simp)
    · exact absurd h (by simp)
  · exact absurd h (by simp)

/-- C8 witness: an analysis carrying only a score of 55 and an explicitly
empty sections list renders with zero markers and all-zero counts. -/
theorem c8_empty_sections_document_witness :
    ((RenderDoc.mk "score-poor".data 55 (.str defaultFeedback) 0 0 0 0 []
        none none none none).markers = [] ∧
      (RenderDoc.mk "score-poor".data 55 (.str defaultFeedback) 0 0 0 0 []
        none none none none).redCount = 0 ∧
      (RenderDoc.mk "score-poor".data 55 (.str defaultFeedback) 0 0 0 0 []
        none none none none).yellowCount = 0 ∧
      (RenderDoc.mk "score-poor".data 55 (.str defaultFeedback) 0 0 0 0 []
        none none none none).greenCount = 0 ∧
      (RenderDoc.mk "score-poor".data 55 (.str defaultFeedback) 0 0 0 0 []
        none none none none).totalSections = 0) ∧
    create_interactive_html (.obj (.ocons scoreKey (.num 0) .onil))
      = some ⟨"score-poor".data, 0, .str defaultFeedback, 0, 0, 0, 0, [],
          none, none, none, none⟩ :=
  c8_empty_sections_document
    (.ocons scoreKey (.num 55) (.ocons sectionsKey (.arr .anil) .onil))
    (RenderDoc.mk "score-poor".data 55 (.str defaultFeedback) 0 0 0 0 []
      none none none none)
    (by decide) (.inr (by decide))
